import Mathlib

/-!
Shallow embedding of the text-normalization, key-extraction, episode-matching
and deduplication core of the tvdb-scraper repository, together with proofs
settling the specification claims about it.

Python strings are modelled as `List Char` (sequences of Unicode code points).
The Unicode primitives used by the sources (`unicodedata.normalize`,
`str.casefold`, `str.lower`, `str.isalnum`, category tests, the regex classes
`\s`, `\d`, `\w`) are modelled character-by-character on the fragment of
Unicode the repository's data exercises: all of ASCII, the dash, apostrophe
and space variants enumerated by the sources, sharp s (both cases), the
combining acute accent with its canonical composition, and the common
invisible format characters.  Characters outside this fragment behave as
plain caseless letters.  Autojunk in `difflib.SequenceMatcher` (which only
affects right-hand strings of 200 or more characters) is not modelled.
-/

namespace ERSpec

/-- Python strings are sequences of Unicode code points, modelled as lists of
`Char`. -/
abbrev PyStr := List Char

/-- ASCII apostrophe, written by code point to stay clear of escaping. -/
def apoChar : Char := Char.ofNat 0x27

/-- Combining acute accent U+0301 (canonical combining class 230). -/
def acuteAccent : Char := Char.ofNat 0x301

/-- Precomposed letter a with acute U+00E1. -/
def aAcute : Char := Char.ofNat 0xE1

/-- Small sharp s U+00DF. -/
def smallSharpS : Char := Char.ofNat 0xDF

/-- Capital sharp s U+1E9E; `str.lower` maps it to U+00DF. -/
def capitalSharpS : Char := Char.ofNat 0x1E9E

/-- Zero-width non-joiner U+200C, an invisible format (Cf) character. -/
def zwnj : Char := Char.ofNat 0x200C

/-- Characters of Python's whitespace class: the set matched by the regex
class `\s` and stripped by `str.strip()`. -/
def isPyWs (c : Char) : Bool :=
  let n := c.toNat
  (0x9 ≤ n && n ≤ 0xD) || n == 0x20 || (0x1C ≤ n && n ≤ 0x1F) || n == 0x85 ||
    n == 0xA0 || n == 0x1680 || (0x2000 ≤ n && n ≤ 0x200A) || n == 0x2028 ||
    n == 0x2029 || n == 0x202F || n == 0x205F || n == 0x3000

/-- The dash variants enumerated in `check_videos_presence.DASH_EQUIVALENTS`. -/
def isDashVariant (c : Char) : Bool :=
  c.toNat == 0x2010 || c.toNat == 0x2011 || c.toNat == 0x2012 ||
    c.toNat == 0x2013 || c.toNat == 0x2014 || c.toNat == 0x2015 ||
    c.toNat == 0x2212 || c.toNat == 0x2043 || c.toNat == 0xAD

/-- The apostrophe variants enumerated in
`check_videos_presence.APOSTROPHE_EQUIVALENTS`. -/
def isApoVariant (c : Char) : Bool :=
  c.toNat == 0x2018 || c.toNat == 0x2019 || c.toNat == 0x201B ||
    c.toNat == 0x2032 || c.toNat == 0xB4 || c.toNat == 0x60 ||
    c.toNat == 0x2BC || c.toNat == 0x2B9 || c.toNat == 0xFF07

/-- The space variants enumerated in
`check_videos_presence.SPACE_EQUIVALENTS`. -/
def isSpaceVariant (c : Char) : Bool :=
  c.toNat == 0xA0 || c.toNat == 0x2007 || c.toNat == 0x202F

/-- Invisible Unicode format characters (category Cf) of the modelled
fragment, removed by `check_videos_presence._remove_format_chars`. -/
def isCfChar (c : Char) : Bool :=
  c.toNat == 0xAD || c.toNat == 0x200B || c.toNat == 0x200C ||
    c.toNat == 0x200D || c.toNat == 0x2060 || c.toNat == 0xFEFF

/-- ASCII decimal digit, the model of the regex class `\d`. -/
def isAsciiDigitC (c : Char) : Bool :=
  0x30 ≤ c.toNat && c.toNat ≤ 0x39

/-- ASCII letter. -/
def isAsciiAlphaC (c : Char) : Bool :=
  (0x41 ≤ c.toNat && c.toNat ≤ 0x5A) || (0x61 ≤ c.toNat && c.toNat ≤ 0x7A)

/-- Model of Python `str.isalnum` on the character fragment: ASCII follows the
exact rule; the modelled marks, format characters, punctuation variants and
whitespace are not alphanumeric; remaining characters count as letters. -/
def isAlnumChar (c : Char) : Bool :=
  if c.toNat < 0x80 then isAsciiDigitC c || isAsciiAlphaC c
  else if c = acuteAccent || isCfChar c || isDashVariant c || isApoVariant c
      || isPyWs c then false
  else true

/-- Model of the regex class `\w`: alphanumeric or underscore. -/
def isWordChar (c : Char) : Bool :=
  isAlnumChar c || c = '_'

/-- Compatibility/canonical decomposition on the modelled fragment: the only
decomposable character the repository's data exercises is a-acute. -/
def decompChar (c : Char) : List Char :=
  if c = aAcute then ['a', acuteAccent] else [c]

/-- Canonical composition of an adjacent pair on the modelled fragment. -/
def composePair (a b : Char) : Option Char :=
  if a = 'a' && b = acuteAccent then some aAcute else none

/-- Fuel-indexed canonical composition pass of NFC/NFKC, modelled on
adjacent pairs (the modelled fragment has a single combining class, so
canonical reordering is the identity and blocking cannot arise); each step
shortens the string, so fuel equal to the length always suffices. -/
def composeSeqF : Nat → PyStr → PyStr
  | 0, s => s
  | _ + 1, [] => []
  | _ + 1, [c] => [c]
  | fuel + 1, a :: b :: rest =>
    match composePair a b with
    | some c => composeSeqF fuel (c :: rest)
    | none => a :: composeSeqF fuel (b :: rest)

/-- Canonical composition pass of NFC/NFKC. -/
def composeSeq (s : PyStr) : PyStr :=
  composeSeqF s.length s

/-- Model of `unicodedata.normalize("NFKC", s)`: decompose, then compose.
Canonical reordering is the identity on the modelled fragment. -/
def nfkc (s : PyStr) : PyStr :=
  composeSeq (s.flatMap decompChar)

/-- Model of `unicodedata.normalize("NFKD", s)`: decompose only. -/
def nfkd (s : PyStr) : PyStr :=
  s.flatMap decompChar

/-- Body of `wsCollapse`; the flag records whether the scan is inside a
whitespace run whose single replacement space has already been emitted. -/
def wsCollapseGo : Bool → PyStr → PyStr
  | _, [] => []
  | inRun, c :: rest =>
    if isPyWs c then
      if inRun then wsCollapseGo true rest
      else ' ' :: wsCollapseGo true rest
    else c :: wsCollapseGo false rest

/-- Model of `re.sub(r"\s+", " ", s)`: replace each maximal whitespace run
with a single ASCII space. -/
def wsCollapse (s : PyStr) : PyStr :=
  wsCollapseGo false s

/-- Drop trailing whitespace. -/
def dropTrailingWs : PyStr → PyStr
  | [] => []
  | c :: rest =>
    let r := dropTrailingWs rest
    if r = [] ∧ isPyWs c then [] else c :: r

/-- Model of `str.strip()`: drop leading and trailing whitespace. -/
def pyStrip (s : PyStr) : PyStr :=
  dropTrailingWs (s.dropWhile isPyWs)

/-- Character translation applied by `check_videos_presence.normalize`: dash,
apostrophe and special-space variants are unified. -/
def translateCv (c : Char) : Char :=
  if isDashVariant c then '-'
  else if isApoVariant c then apoChar
  else if isSpaceVariant c then ' '
  else c

/-- Model of `str.casefold` on the character fragment: ASCII letters fold to
lower case and both sharp s characters fold to a double s. -/
def casefoldChar (c : Char) : List Char :=
  if c = smallSharpS || c = capitalSharpS then ['s', 's']
  else if 0x41 ≤ c.toNat && c.toNat ≤ 0x5A then [Char.ofNat (c.toNat + 0x20)]
  else [c]

/-- Model of `str.lower` on the character fragment: ASCII letters are
lowered and capital sharp s lowers to small sharp s. -/
def lowerChar (c : Char) : Char :=
  if c = capitalSharpS then smallSharpS
  else if 0x41 ≤ c.toNat && c.toNat ≤ 0x5A then Char.ofNat (c.toNat + 0x20)
  else c

/-- The filename-key normalizer `check_videos_presence.normalize`: NFKC,
remove format characters, unify dash/apostrophe/space variants, collapse
whitespace, strip, casefold. -/
def cvNormalize (s : PyStr) : PyStr :=
  (pyStrip (wsCollapse
    (((nfkc s).filter (fun c => !isCfChar c)).map translateCv))).flatMap
    casefoldChar

/-- Replacement `s.replace("\u00df", "ss")` at the character level. -/
def ssExpand (c : Char) : List Char :=
  if c = smallSharpS then ['s', 's'] else [c]

/-- Replacement `s.replace("_", " ")` at the character level. -/
def underscoreToSpace (c : Char) : Char :=
  if c = '_' then ' ' else c

/-- The matching-oriented normalizer `er_matching.normalize`: sharp s to ss,
underscores to spaces, lower case, NFKD, keep only alphanumerics and spaces,
collapse whitespace, strip. -/
def erNormalize (s : PyStr) : PyStr :=
  if s = [] then []
  else
    pyStrip (wsCollapse
      ((nfkd (((s.flatMap ssExpand).map underscoreToSpace).map
        lowerChar)).filter (fun c => isAlnumChar c || isPyWs c)))

/-- The literal letters of the word eisenbahn. -/
def eisChars : PyStr := ['e', 'i', 's', 'e', 'n', 'b', 'a', 'h', 'n']

/-- The literal letters of the word romantik. -/
def romChars : PyStr := ['r', 'o', 'm', 'a', 'n', 't', 'i', 'k']

/-- Strip a literal character sequence from the front of a string, returning
the remainder on success. -/
def stripLit : PyStr → PyStr → Option PyStr
  | [], s => some s
  | _ :: _, [] => none
  | c :: cs, d :: ds => if d = c then stripLit cs ds else none

/-- Strip a literal character sequence case-insensitively (via `lowerChar`,
matching `re.IGNORECASE` on the ASCII letters involved). -/
def stripLitCI : PyStr → PyStr → Option PyStr
  | [], s => some s
  | _ :: _, [] => none
  | c :: cs, d :: ds => if lowerChar d = c then stripLitCI cs ds else none

/-- Whether a string starts with a word character (for `\b` boundaries). -/
def headIsWord : PyStr → Bool
  | [] => false
  | c :: _ => isWordChar c

/-- Match `eisenbahn\s*romantik\b` at the start of a string (the argument
position is already known to sit on a `\b` boundary), returning the
remainder after the match. -/
def matchSeriesAt (s : PyStr) : Option PyStr :=
  match stripLit eisChars s with
  | none => none
  | some r1 =>
    match stripLit romChars (r1.dropWhile isPyWs) with
    | none => none
    | some r2 => if headIsWord r2 then none else some r2

/-- Fuel-indexed scanner for `re.sub(r"\beisenbahn\s*romantik\b", "", s)`:
scan left to right, removing each occurrence; the boolean argument records
whether the previous character of the original string is a word character
(the `\b` context).  Every step consumes at least one character, so a fuel
equal to the string length always suffices. -/
def subSeriesF : Nat → Bool → PyStr → PyStr
  | 0, _, s => s
  | _ + 1, _, [] => []
  | fuel + 1, pw, c :: rest =>
    if pw then c :: subSeriesF fuel (isWordChar c) rest
    else
      match matchSeriesAt (c :: rest) with
      | some r => subSeriesF fuel true r
      | none => c :: subSeriesF fuel (isWordChar c) rest

/-- Model of `re.sub(r"\beisenbahn\s*romantik\b", "", s)`. -/
def subSeries (s : PyStr) : PyStr :=
  subSeriesF s.length false s

/-- Replacement of the en and em dash with a hyphen at the character
level. -/
def emToHyphen (c : Char) : Char :=
  if c.toNat == 0x2013 || c.toNat == 0x2014 then '-' else c

/-- The deduplication normalizer
`convert_er_filmliste_json_to_csv.normalize_title`: lower case, en/em dash to
hyphen, NFKD, keep only alphanumerics and spaces, remove the series name,
collapse whitespace, strip. -/
def normalize_title (s : PyStr) : PyStr :=
  pyStrip (wsCollapse (subSeries
    ((nfkd ((s.map lowerChar).map emToHyphen)).filter
      (fun c => isAlnumChar c || isPyWs c))))

/-- Whether a character is one of the dashes in the `[-–—]` class of
`SERIES_PREFIX_RE`. -/
def isSeriesDash (c : Char) : Bool :=
  c = '-' || c.toNat == 0x2013 || c.toNat == 0x2014

/-- Match `SERIES_PREFIX_RE` (anchored, case-insensitive
`\s*eisenbahn\s*[-–—]?\s*romantik\s*(?:[:\-–—]\s*)?`) at the start of a
string, returning the remainder after the greedily matched span. -/
def seriesPreMatch (s : PyStr) : Option PyStr :=
  let r0 := s.dropWhile isPyWs
  match stripLitCI eisChars r0 with
  | none => none
  | some r1 =>
    let r2 := r1.dropWhile isPyWs
    let r3 := match r2 with
      | c :: rest => if isSeriesDash c then rest else r2
      | [] => r2
    match stripLitCI romChars (r3.dropWhile isPyWs) with
    | none => none
    | some r4 =>
      let r5 := r4.dropWhile isPyWs
      match r5 with
      | c :: rest =>
        if c = ':' || isSeriesDash c then some (rest.dropWhile isPyWs)
        else some r5
      | [] => some r5

/-- Model of `er_matching.strip_series_prefix` (Lean name shortened). -/
def stripSeries (s : PyStr) : PyStr :=
  if s = [] then []
  else
    match seriesPreMatch s with
    | some r => pyStrip r
    | none => pyStrip s

/-- Remainder after the regex fragment `\s*-\s*` (whitespace, a literal
hyphen, whitespace), or `none` if no hyphen follows the whitespace. -/
def sepHyphen (s : PyStr) : Option PyStr :=
  match s.dropWhile isPyWs with
  | c :: rest => if c = '-' then some (rest.dropWhile isPyWs) else none
  | [] => none

/-- Take exactly `n` characters, all decimal digits. -/
def takeDigits : Nat → PyStr → Option (PyStr × PyStr)
  | 0, s => some ([], s)
  | n + 1, c :: rest =>
    if isAsciiDigitC c then
      match takeDigits n rest with
      | some (ds, r) => some (c :: ds, r)
      | none => none
    else none
  | _ + 1, [] => none

/-- Parse `S\d{1,4}E\d{1,4}\b` at the start of a string (case-insensitive),
returning the matched text and the remainder.  A digit run must stop within
four digits of its own accord: with a longer run no backtracked split can
satisfy the following literal or boundary, mirroring the regex engine. -/
def parseSeToken (s : PyStr) : Option (PyStr × PyStr) :=
  match s with
  | c :: rest =>
    if c = 'S' || c = 's' then
      let d1 := rest.takeWhile isAsciiDigitC
      let r1 := rest.dropWhile isAsciiDigitC
      if 1 ≤ d1.length && d1.length ≤ 4 then
        match r1 with
        | e :: rest2 =>
          if e = 'E' || e = 'e' then
            let d2 := rest2.takeWhile isAsciiDigitC
            let r2 := rest2.dropWhile isAsciiDigitC
            if 1 ≤ d2.length && d2.length ≤ 4 && !headIsWord r2 then
              some (c :: (d1 ++ e :: d2), r2)
            else none
          else none
        | [] => none
      else none
    else none
  | [] => none

/-- Parse `\d{4}-\d{2}-\d{2}` at the start of a string, returning the
matched text and the remainder. -/
def parseDateToken (s : PyStr) : Option (PyStr × PyStr) :=
  match takeDigits 4 s with
  | some (y, r1) =>
    match r1 with
    | c1 :: r2 =>
      if c1 = '-' then
        match takeDigits 2 r2 with
        | some (mo, r3) =>
          match r3 with
          | c2 :: r4 =>
            if c2 = '-' then
              match takeDigits 2 r4 with
              | some (d, r5) => some (y ++ '-' :: (mo ++ '-' :: d), r5)
              | none => none
            else none
          | [] => none
        | none => none
      else none
    | [] => none
  | none => none

/-- Candidate remainders after the optional group `(?:\s*[- ]?\s*xl)?` of
`PREFIX_RE`, in regex backtracking order (maximal whitespace first, the
one-character class taken before skipped). -/
def xlRemainders (s : PyStr) : List PyStr :=
  let m1 := (s.takeWhile isPyWs).length
  (List.range (m1 + 1)).reverse.flatMap (fun k1 =>
    let r1 := s.drop k1
    let optBranches : List PyStr :=
      match r1 with
      | c :: rest => if c = '-' || c = ' ' then [rest, r1] else [r1]
      | [] => [r1]
    optBranches.flatMap (fun r2 =>
      let m2 := (r2.takeWhile isPyWs).length
      (List.range (m2 + 1)).reverse.filterMap (fun k2 =>
        match r2.drop k2 with
        | c1 :: c2 :: rest3 =>
          if (c1 = 'x' || c1 = 'X') && (c2 = 'l' || c2 = 'L') then some rest3
          else none
        | _ => none)))

/-- Whether the regex tail `(?:\s*[- ]?\s*xl)?\s*-\s*` can succeed at `s`;
only success matters, since the captured groups are fixed earlier. -/
def xlThenSep (s : PyStr) : Bool :=
  (xlRemainders s).any (fun r => (sepHyphen r).isSome) || (sepHyphen s).isSome

/-- The raw key string `{se} - {date} - {abs} - ` produced by
`key_from_filename` and `key_from_row` before normalization. -/
def rawKey (se date absD : PyStr) : PyStr :=
  se ++ ' ' :: '-' :: ' ' ::
    (date ++ ' ' :: '-' :: ' ' :: (absD ++ [' ', '-', ' ']))

/-- Whether the character before the current position is a word character
(the `\b` context; the start of the scan counts as a non-word position). -/
def prevIsWord : Option Char → Bool
  | none => false
  | some c => isWordChar c

/-- Attempt the body of `PREFIX_RE` (everything after the non-greedy `.*?`)
at the current position; `prev` is the preceding character, for the `\b`
boundary before the season token.  On success the raw key is returned. -/
def tailMatch (prev : Option Char) (s : PyStr) : Option PyStr :=
  if prevIsWord prev then none
  else
    match parseSeToken s with
    | none => none
    | some (se, r1) =>
      match sepHyphen r1 with
      | none => none
      | some r2 =>
        match parseDateToken r2 with
        | none => none
        | some (date, r3) =>
          match sepHyphen r3 with
          | none => none
          | some r4 =>
            if (r4.takeWhile isAsciiDigitC).length = 0 then none
            else if xlThenSep (r4.dropWhile isAsciiDigitC) then
              some (rawKey se date (r4.takeWhile isAsciiDigitC))
            else none

/-- Scan for the first position at which the body of `PREFIX_RE` matches.
The scan starts after the leading `\s*`; the non-greedy `.*?` may consume
any character except a newline, so the scan stops at a newline. -/
def scanPrefix : Option Char → PyStr → Option PyStr
  | _, [] => none
  | prev, c :: rest =>
    match tailMatch prev (c :: rest) with
    | some raw => some raw
    | none => if c = '\n' then none else scanPrefix (some c) rest

/-- Model of `check_videos_presence.key_from_filename`. -/
def key_from_filename (filename : PyStr) : Option PyStr :=
  match scanPrefix none (filename.dropWhile isPyWs) with
  | some raw => some (cvNormalize raw)
  | none => none

/-- The first run of decimal digits in a string, or the empty string. -/
def firstDigitRun : PyStr → PyStr
  | [] => []
  | c :: rest =>
    if isAsciiDigitC c then c :: rest.takeWhile isAsciiDigitC
    else firstDigitRun rest

/-- Model of `check_videos_presence._abs_digits`. -/
def absDigits (value : PyStr) : PyStr :=
  firstDigitRun (pyStrip value)

/-- A CSV row as consumed by `key_from_row`: the three identity fields, each
possibly missing (`None`). -/
structure Row where
  seasonEpisode : Option PyStr
  date : Option PyStr
  absEpisode : Option PyStr
deriving DecidableEq

/-- Model of `(row.get(field) or "")`. -/
def getOr (v : Option PyStr) : PyStr := v.getD []

/-- Model of `check_videos_presence.key_from_row`. -/
def key_from_row (row : Row) : PyStr :=
  let se := pyStrip (getOr row.seasonEpisode)
  let d := pyStrip (getOr row.date)
  let a := absDigits (getOr row.absEpisode)
  cvNormalize (rawKey se d a)

/-- An episode record as produced by `er_matching.load_episodes`; the field
`noPrefixTitle` models the dict entry `norm_title_noprefix`. -/
structure Episode where
  season_episode_code : PyStr
  air_date_iso : PyStr
  abs_episode : Option Int
  title : PyStr
  norm_title : PyStr
  noPrefixTitle : PyStr
deriving DecidableEq

/-- Double-quote character, written by code point. -/
def quoteChar : Char := Char.ofNat 0x22

/-- Model of `er_matching.sanitize_for_filename`. -/
def sanitize_for_filename (s : PyStr) : PyStr :=
  if s = [] then []
  else
    let s1 := s.map (fun c => if c = '/' || c = '\\' then '-' else c)
    let s2 := s1.filter (fun c =>
      !(c = ':' || c = '*' || c = '?' || c = quoteChar || c = '<' || c = '>'
        || c = '|'))
    pyStrip s2

/-- Fuel-indexed decimal digits of a natural number, most significant
first; dividing by ten at every step, fuel `n + 1` always suffices. -/
def natDigitsF : Nat → Nat → PyStr
  | 0, _ => []
  | fuel + 1, n =>
    if n < 10 then [Char.ofNat (0x30 + n)]
    else natDigitsF fuel (n / 10) ++ [Char.ofNat (0x30 + n % 10)]

/-- Decimal digits of a natural number, most significant first. -/
def natDigits (n : Nat) : PyStr :=
  natDigitsF (n + 1) n

/-- Model of Python `str` on an integer. -/
def pyIntStr (n : Int) : PyStr :=
  if n < 0 then '-' :: natDigits n.natAbs else natDigits n.toNat

/-- The literal `Eisenbahn-Romantik` used as the series prefix of built
filenames. -/
def seriesLit : PyStr :=
  ['E', 'i', 's', 'e', 'n', 'b', 'a', 'h', 'n', '-',
    'R', 'o', 'm', 'a', 'n', 't', 'i', 'k']

/-- Placeholder `S00E00`. -/
def codeDefault : PyStr := ['S', '0', '0', 'E', '0', '0']

/-- Placeholder `0000-00-00`. -/
def dateDefault : PyStr :=
  ['0', '0', '0', '0', '-', '0', '0', '-', '0', '0']

/-- Placeholder `Unknown Title`. -/
def titleDefault : PyStr :=
  ['U', 'n', 'k', 'n', 'o', 'w', 'n', ' ', 'T', 'i', 't', 'l', 'e']

/-- The literal `.mp4`. -/
def mp4Ext : PyStr := ['.', 'm', 'p', '4']

/-- Model of `er_matching.build_new_filename`. -/
def build_new_filename (ep : Episode) : PyStr :=
  let code := if ep.season_episode_code = [] then codeDefault
    else ep.season_episode_code
  let airDate := if ep.air_date_iso = [] then dateDefault else ep.air_date_iso
  let absStr := match ep.abs_episode with
    | some n => pyIntStr n
    | none => ['0']
  let t := sanitize_for_filename
    (if ep.title = [] then titleDefault else ep.title)
  seriesLit ++ ' ' ::
    (code ++ ' ' :: '-' :: ' ' ::
      (airDate ++ ' ' :: '-' :: ' ' ::
        (absStr ++ ' ' :: '-' :: ' ' :: (t ++ mp4Ext))))

/-- Length of the longest common prefix of two strings. -/
def commonLen : PyStr → PyStr → Nat
  | x :: xs, y :: ys => if x = y then commonLen xs ys + 1 else 0
  | _, _ => 0

/-- Model of `difflib.SequenceMatcher.find_longest_match` over the whole of
both strings with no junk (the sources pass `None`, and autojunk does not
fire on the short strings the repository compares): the longest common
substring, ties broken by least start in `a`, then least start in `b`;
returns `(i, j, k)`. -/
def flm (a b : PyStr) : Nat × Nat × Nat :=
  let cands := (List.range a.length).flatMap (fun i =>
    (List.range b.length).map (fun j =>
      (i, j, commonLen (a.drop i) (b.drop j))))
  cands.foldl (fun best c => if best.2.2 < c.2.2 then c else best) (0, 0, 0)

/-- Fuel-indexed total size of the matching blocks found by the recursive
divide of `difflib.SequenceMatcher.get_matching_blocks`; fuel equal to the
combined length always suffices, since each level removes at least one
character from each side of the split. -/
def matchesCntF : Nat → PyStr → PyStr → Nat
  | 0, _, _ => 0
  | fuel + 1, a, b =>
    if (flm a b).2.2 = 0 then 0
    else
      matchesCntF fuel (a.take (flm a b).1) (b.take (flm a b).2.1) +
        (flm a b).2.2 +
        matchesCntF fuel (a.drop ((flm a b).1 + (flm a b).2.2))
          (b.drop ((flm a b).2.1 + (flm a b).2.2))

/-- Total size of the matching blocks of `difflib.SequenceMatcher`. -/
def matchesCnt (a b : PyStr) : Nat :=
  matchesCntF (a.length + b.length) a b

/-- Model of `difflib.SequenceMatcher(None, a, b).ratio()` as an exact
rational (`2 * matches / (len(a) + len(b))`, or `1.0` on two empty
strings). -/
def ratio (a b : PyStr) : ℚ :=
  if a.length + b.length = 0 then 1
  else (2 * matchesCnt a b : ℚ) / ((a.length : ℚ) + (b.length : ℚ))

/-- Whether `needle` occurs as a contiguous substring of `hay` (Python's
`in` operator on strings). -/
def isSubstring (needle hay : PyStr) : Bool :=
  (List.range (hay.length + 1)).any (fun i => needle.isPrefixOf (hay.drop i))

/-- Model of `er_matching.contains_whole_query`. -/
def contains_whole_query (query candidate : PyStr) : Bool :=
  if query = [] || candidate = [] then false
  else isSubstring (' ' :: query ++ [' ']) (' ' :: candidate ++ [' '])

/-- The scanning loop of `find_best_match`, carrying the best candidate and
best score seen so far. -/
def fbmGo (q : PyStr) : Option Episode → ℚ → List Episode →
    Option Episode × ℚ
  | best, score, [] => (best, score)
  | best, score, e :: rest =>
    if e.noPrefixTitle = [] then fbmGo q best score rest
    else if contains_whole_query q e.noPrefixTitle then (some e, 1)
    else if score < ratio q e.noPrefixTitle then
      fbmGo q (some e) (ratio q e.noPrefixTitle) rest
    else fbmGo q best score rest

/-- Model of `er_matching.find_best_match`. -/
def find_best_match (title : PyStr) (episodes : List Episode) :
    Option Episode × ℚ :=
  let q := erNormalize (stripSeries title)
  if q = [] then (none, 0)
  else fbmGo q none 0 episodes

/-- A raw observation row as assembled by `json_to_reduced_df`: only rows
with an explicit episode number survive the filter, so `episode` is an
integer. -/
structure Obs where
  title : PyStr
  date : PyStr
  start_time : PyStr
  duration : PyStr
  episode : Int
deriving DecidableEq

/-- Value of a nonempty all-digit string, `none` otherwise. -/
def digitsToNat (ds : PyStr) : Option Nat :=
  if ds ≠ [] ∧ ds.all isAsciiDigitC then
    some (ds.foldl (fun acc c => acc * 10 + (c.toNat - 0x30)) 0)
  else none

/-- Model of Python `int(s)` on a string: optional surrounding whitespace,
an optional sign, then at least one decimal digit (PEP 515 underscores are
not modelled). -/
def pyInt (s : PyStr) : Option Int :=
  match pyStrip s with
  | '+' :: ds => (digitsToNat ds).map Int.ofNat
  | '-' :: ds => (digitsToNat ds).map (fun n => -(n : Int))
  | ds => (digitsToNat ds).map Int.ofNat

/-- Model of `parse_duration_to_seconds`: `HH:MM:SS` to seconds, `0` on any
failure (wrong number of parts or an unparsable part). -/
def parse_duration_to_seconds (t : PyStr) : Int :=
  match (t.splitOn ':').map pyInt with
  | [some h, some m, some s] => h * 3600 + m * 60 + s
  | _ => 0

/-- Days in a month of the Gregorian calendar. -/
def daysInMonth (y m : Nat) : Nat :=
  if m = 2 then
    if (y % 4 = 0 ∧ ¬y % 100 = 0) ∨ y % 400 = 0 then 29 else 28
  else if m = 4 ∨ m = 6 ∨ m = 9 ∨ m = 11 then 30
  else 31

/-- Model of `pd.to_datetime(s, format="%d.%m.%Y", errors="coerce")`: one
or two digits of day, a dot, one or two digits of month, a dot, exactly four
digits of year, nothing else, and the date must exist in the calendar;
anything else is `NaT` (`none`).  Returned year-month-day, so that ordinary
lexicographic comparison is date order; the pandas timestamp range limits
are not modelled. -/
def parseDateDMY (s : PyStr) : Option (Nat × Nat × Nat) :=
  match s.splitOn '.' with
  | [dPart, mPart, yPart] =>
    if 1 ≤ dPart.length ∧ dPart.length ≤ 2 ∧ dPart.all isAsciiDigitC ∧
        1 ≤ mPart.length ∧ mPart.length ≤ 2 ∧ mPart.all isAsciiDigitC ∧
        yPart.length = 4 ∧ yPart.all isAsciiDigitC then
      match digitsToNat dPart, digitsToNat mPart, digitsToNat yPart with
      | some d, some m, some y =>
        if 1 ≤ m ∧ m ≤ 12 ∧ 1 ≤ d ∧ d ≤ daysInMonth y m then some (y, m, d)
        else none
      | _, _, _ => none
    else none
  | _ => none

/-- Dates ordered year, then month, then day. -/
abbrev DateT := Lex (Nat × Lex (Nat × Nat))

/-- Pack a parsed date for ordering. -/
def mkDate (t : Nat × Nat × Nat) : DateT :=
  toLex (t.1, toLex (t.2.1, t.2.2))

/-- The `_date_dt` column: parsed broadcast date, `⊥` for `NaT` (pandas
sorts `NaT` last under `ascending=False`, i.e. below every date). -/
def dateKey (o : Obs) : WithBot DateT :=
  match parseDateDMY o.date with
  | some t => ((mkDate t : DateT) : WithBot DateT)
  | none => ⊥

/-- The `_dur_s` column. -/
def durKey (o : Obs) : Int :=
  parse_duration_to_seconds o.duration

/-- The `_start_norm` column: the stripped raw start-time string. -/
def startKey (o : Obs) : List Char :=
  pyStrip o.start_time

/-- The `_title_norm` column. -/
def titleKey (o : Obs) : List Char :=
  normalize_title o.title

/-- The deduplication group key: (episode number, normalized title). -/
def groupKey (o : Obs) : Int × List Char :=
  (o.episode, titleKey o)

/-- The tie-break key in the orientation of the specification: a row is
better when its parsed broadcast date is later, then its parsed duration
longer, then its start-time string lexicographically greater. -/
def tbKey (o : Obs) : Lex (WithBot DateT × Lex (Int × List Char)) :=
  toLex (dateKey o, toLex (durKey o, startKey o))

/-- The combined lexicographic sort key of `df.sort_values(by=["episode",
"_title_norm", "_date_dt", "_dur_s", "_start_norm"], ascending=[True, True,
False, False, False])`: the three descending columns sort by dual order. -/
def sortKey (o : Obs) :
    Lex (Int × Lex (List Char ×
      Lex ((WithBot DateT)ᵒᵈ × Lex (Intᵒᵈ × (List Char)ᵒᵈ)))) :=
  toLex (o.episode, toLex (titleKey o,
    toLex (OrderDual.toDual (dateKey o),
      toLex (OrderDual.toDual (durKey o), OrderDual.toDual (startKey o)))))

/-- The row order realised by the first `sort_values` call. -/
def rowLe (a b : Obs) : Prop :=
  sortKey a ≤ sortKey b

instance : DecidableRel rowLe :=
  fun a b => inferInstanceAs (Decidable (sortKey a ≤ sortKey b))

instance : IsTotal Obs rowLe :=
  ⟨fun a b => le_total (sortKey a) (sortKey b)⟩

instance : IsTrans Obs rowLe :=
  ⟨fun _ _ _ h1 h2 => le_trans h1 h2⟩

/-- The presentation order of the second `sort_values` call: broadcast date
descending, `NaT` last. -/
def presLe (a b : Obs) : Prop :=
  OrderDual.toDual (dateKey a) ≤ OrderDual.toDual (dateKey b)

instance : DecidableRel presLe :=
  fun a b => inferInstanceAs
    (Decidable (OrderDual.toDual (dateKey a) ≤ OrderDual.toDual (dateKey b)))

instance : IsTotal Obs presLe :=
  ⟨fun a b => le_total (OrderDual.toDual (dateKey a)) (OrderDual.toDual (dateKey b))⟩

instance : IsTrans Obs presLe :=
  ⟨fun _ _ _ h1 h2 => le_trans h1 h2⟩

/-- Fuel-indexed scan of `drop_duplicates(keep="first")`; every step
consumes the head, so fuel equal to the length always suffices. -/
def dedupFirstF : Nat → List Obs → List Obs
  | 0, _ => []
  | _ + 1, [] => []
  | fuel + 1, a :: l =>
    a :: dedupFirstF fuel (l.filter (fun b => !decide (groupKey b = groupKey a)))

/-- Model of `df.drop_duplicates(subset=["episode", "_title_norm"],
keep="first")`: keep the first row of each group, preserving order. -/
def dedupFirst (l : List Obs) : List Obs :=
  dedupFirstF l.length l

/-- The survivors of deduplication, in the order of the first sort: stable
sort by the five keys (pandas `kind="mergesort"`, modelled by the equally
stable insertion sort), then keep the first row of each group. -/
def surviveRows (l : List Obs) : List Obs :=
  dedupFirst (List.insertionSort rowLe l)

/-- Model of `convert_er_filmliste_json_to_csv.dedupe_final`: survivor
selection followed by the purely presentational stable re-sort by broadcast
date descending. -/
def dedupe_final (l : List Obs) : List Obs :=
  List.insertionSort presLe (surviveRows l)

/-- Dynamic (duck-typed) Python values, for the error-behavior claims. -/
inductive PyVal where
  | noneV : PyVal
  | intV : Int → PyVal
  | strV : PyStr → PyVal
deriving DecidableEq

/-- Python exception kinds raised by the normalizers on non-string input. -/
inductive PyExc where
  | attributeError : PyExc
  | typeError : PyExc
deriving DecidableEq

/-- Dynamic behavior of `er_matching.normalize`: falsy inputs (`None`, `0`,
the empty string) pass the `if not s` guard and yield the empty string; a
truthy non-string reaches `s.replace` and raises `AttributeError`. -/
def erNormalizePy : PyVal → Except PyExc PyStr
  | .noneV => .ok []
  | .intV n => if n = 0 then .ok [] else .error .attributeError
  | .strV s => .ok (erNormalize s)

/-- Dynamic behavior of `check_videos_presence.normalize`: the first
statement is `unicodedata.normalize("NFKC", s)`, which raises `TypeError`
on every non-string. -/
def cvNormalizePy : PyVal → Except PyExc PyStr
  | .strV s => .ok (cvNormalize s)
  | _ => .error .typeError

/-- Dynamic behavior of
`convert_er_filmliste_json_to_csv.normalize_title`: an explicit
`isinstance` guard maps every non-string to the empty string. -/
def normalizeTitlePy : PyVal → Except PyExc PyStr
  | .strV s => .ok (normalize_title s)
  | _ => .ok []

/-- Concrete filename without the XL qualifier (from the specification). -/
def fnPlain : PyStr :=
  (r"Eisenbahn-Romantik S2024E10 - 2024-03-22 - 1071 - Title.mp4").data

/-- Concrete filename with the XL qualifier (from the specification). -/
def fnXl : PyStr :=
  (r"Eisenbahn-Romantik S2024E10 - 2024-03-22 - 1071 XL - Title.mp4").data

/-- Concrete table row carrying the XL qualifier in its `AbsEpisode` cell. -/
def rowXl : Row :=
  ⟨some (r"S2024E10").data, some (r"2024-03-22").data, some (r"1071 XL").data⟩

/-- The normalized key shared by `fnPlain`, `fnXl` and `rowXl`. -/
def xlKey : PyStr := (r"s2024e10 - 2024-03-22 - 1071 -").data

/-- A row with every identity field missing. -/
def emptyRow : Row := ⟨none, none, none⟩

/-- The bare separator skeleton produced by `key_from_row` on `emptyRow`. -/
def dashSkeleton : PyStr := (r"- - -").data

/-- A filename in which the prefix pattern does not occur. -/
def unparsedName : PyStr := (r"somefile.txt").data

/-- A title consisting solely of the series prefix. -/
def prefixOnlyTitle : PyStr := (r"Eisenbahn-Romantik").data

/-- A whitespace-only title. -/
def wsOnlyTitle : PyStr := [' ', ' ', ' ']

/-- A concrete title. -/
def gottTitle : PyStr := (r"Die Gotthardbahn").data

/-- A concrete catalog episode, with the derived fields computed the way
`load_episodes` computes them. -/
def epSample : Episode :=
  ⟨(r"S01E01").data, (r"2006-07-10").data, some 1, gottTitle,
    erNormalize gottTitle, erNormalize (stripSeries gottTitle)⟩

/-- A concrete catalog episode whose normalized prefix-stripped title is
empty (its raw title is just the series prefix). -/
def epEmptyNorm : Episode :=
  ⟨(r"S01E02").data, (r"2006-07-17").data, some 2, prefixOnlyTitle,
    erNormalize prefixOnlyTitle, erNormalize (stripSeries prefixOnlyTitle)⟩

/-- A raw observation whose title has a doubled space; its normalized title
ties with `oDupB` on every sort key. -/
def oDupA : Obs :=
  ⟨(r"Zug  fahren").data, (r"01.01.2020").data, (r"20:15").data,
    (r"00:30:00").data, 5⟩

/-- The same observation with a single space in the title: same group and
same tie-break keys as `oDupA`, but a different raw row. -/
def oDupB : Obs :=
  ⟨(r"Zug fahren").data, (r"01.01.2020").data, (r"20:15").data,
    (r"00:30:00").data, 5⟩

/-- An observation in a different deduplication group. -/
def oAlpen : Obs :=
  ⟨(r"Alpenbahn").data, (r"02.01.2020").data, (r"21:00").data,
    (r"00:45:00").data, 7⟩

/-- Analysis predicate: every character of the string is ASCII. -/
def asciiOnly (s : PyStr) : Prop :=
  ∀ c ∈ s, c.toNat < 0x80

/-- Analysis predicate describing collapsed whitespace: every whitespace
character is an ASCII space and no two whitespace characters are
adjacent. -/
def collapsedB : PyStr → Bool
  | [] => true
  | [c] => !isPyWs c || c = ' '
  | a :: b :: rest =>
    ((!isPyWs a || a = ' ') && !(isPyWs a && isPyWs b)) && collapsedB (b :: rest)

set_option maxRecDepth 100000

theorem mem_dropWhile_of_mem {p : Char → Bool} {c : Char} {l : PyStr}
    (hc : p c = false) (h : c ∈ l) : c ∈ l.dropWhile p := by
  induction l with
  | nil => cases h
  | cons d rest ih =>
    by_cases hd : p d
    · rw [List.dropWhile_cons_of_pos hd]
      rcases List.mem_cons.mp h with h1 | h1
      · subst h1; rw [hc] at hd; cases hd
      · exact ih h1
    · rwa [List.dropWhile_cons_of_neg hd]

theorem mem_dropTrailingWs_of_mem {c : Char} {l : PyStr}
    (hc : isPyWs c = false) (h : c ∈ l) : c ∈ dropTrailingWs l := by
  induction l with
  | nil => cases h
  | cons d rest ih =>
    rw [dropTrailingWs]
    rcases List.mem_cons.mp h with h1 | h1
    · subst h1
      rw [if_neg (by simp [hc])]
      exact List.mem_cons_self _ _
    · have hr : c ∈ dropTrailingWs rest := ih h1
      rw [if_neg (by rintro ⟨h2, -⟩; rw [h2] at hr; cases hr)]
      exact List.mem_cons_of_mem _ hr

theorem mem_pyStrip_of_mem {c : Char} {l : PyStr}
    (hc : isPyWs c = false) (h : c ∈ l) : c ∈ pyStrip l :=
  mem_dropTrailingWs_of_mem hc (mem_dropWhile_of_mem hc h)

theorem mem_wsCollapseGo_of_mem {c : Char} (hc : isPyWs c = false) :
    ∀ (l : PyStr) (fl : Bool), c ∈ l → c ∈ wsCollapseGo fl l := by
  intro l
  induction l with
  | nil => intro fl h; cases h
  | cons d rest ih =>
    intro fl h
    rw [wsCollapseGo]
    rcases List.mem_cons.mp h with h1 | h1
    · subst h1
      rw [if_neg (by simp [hc])]
      exact List.mem_cons_self _ _
    · by_cases hd : isPyWs d
      · rw [if_pos hd]
        by_cases hfl : fl
        · subst hfl; simpa using ih true h1
        · simp only [Bool.not_eq_true] at hfl; subst hfl
          simpa using List.mem_cons_of_mem _ (ih true h1)
      · rw [if_neg hd]
        exact List.mem_cons_of_mem _ (ih false h1)

theorem mem_wsCollapse_of_mem {c : Char} {l : PyStr}
    (hc : isPyWs c = false) (h : c ∈ l) : c ∈ wsCollapse l :=
  mem_wsCollapseGo_of_mem hc l false h

theorem mem_composeSeqF_of_mem {c : Char} (h1 : c ≠ 'a')
    (h2 : c ≠ acuteAccent) :
    ∀ (fuel : Nat) (l : PyStr), c ∈ l → c ∈ composeSeqF fuel l := by
  intro fuel
  induction fuel with
  | zero => intro l h; exact h
  | succ fuel ih =>
    intro l h
    match l with
    | [] => cases h
    | [d] => exact h
    | a :: b :: rest =>
      rw [composeSeqF]
      cases hcp : composePair a b with
      | some d =>
        have hab : a = 'a' ∧ b = acuteAccent := by
          by_contra hab
          unfold composePair at hcp
          rw [if_neg (by
            intro hx
            rcases Bool.and_eq_true_iff.mp hx with ⟨hx1, hx2⟩
            exact hab ⟨by simpa using hx1, by simpa using hx2⟩)] at hcp
          cases hcp
        rcases List.mem_cons.mp h with h3 | h3
        · exact absurd (h3.trans hab.1) h1
        rcases List.mem_cons.mp h3 with h4 | h4
        · exact absurd (h4.trans hab.2) h2
        · exact ih _ (List.mem_cons_of_mem _ h4)
      | none =>
        rcases List.mem_cons.mp h with h3 | h3
        · exact h3 ▸ List.mem_cons_self _ _
        · exact List.mem_cons_of_mem _ (ih _ h3)

theorem hyphen_mem_cvNormalize {s : PyStr} (h : Char.ofNat 0x2D ∈ s) :
    Char.ofNat 0x2D ∈ cvNormalize s := by
  have hd : Char.ofNat 0x2D = '-' := by decide
  rw [hd] at h ⊢
  have m1 : '-' ∈ s.flatMap decompChar :=
    List.mem_flatMap.mpr ⟨'-', h, by decide⟩
  have m2 : '-' ∈ nfkc s :=
    mem_composeSeqF_of_mem (by decide) (by decide) _ _ m1
  have m3 : '-' ∈ (nfkc s).filter (fun c => !isCfChar c) :=
    List.mem_filter.mpr ⟨m2, by decide⟩
  have m4 : '-' ∈ ((nfkc s).filter (fun c => !isCfChar c)).map translateCv :=
    List.mem_map.mpr ⟨'-', m3, by decide⟩
  have m5 := mem_wsCollapse_of_mem (c := '-') (by decide) m4
  have m6 := mem_pyStrip_of_mem (c := '-') (by decide) m5
  exact List.mem_flatMap.mpr ⟨'-', m6, by decide⟩

theorem hyphen_mem_rawKey (se d a : PyStr) : Char.ofNat 0x2D ∈ rawKey se d a := by
  have hd : Char.ofNat 0x2D = '-' := by decide
  rw [hd]
  unfold rawKey
  exact List.mem_append_right _ (by simp)

/-- C10: the row-based key extractor is total: it returns a (non-empty)
string for every row, even one with every field missing, where the result
is the bare separator skeleton `- - -`; by contrast the filename extractor
returns `none` on a filename without the pattern, so only the filename path
can signal "no key" through its return value.  (Never raising is expressed
by `key_from_row` being a total function into strings in this model.) -/
theorem C10_row_key_total :
    (∀ row : Row, 0 < (key_from_row row).length) ∧
    key_from_row emptyRow = dashSkeleton ∧
    key_from_filename unparsedName = none := by
  refine ⟨fun row => ?_, by decide, by decide⟩
  unfold key_from_row
  exact List.length_pos_of_mem (hyphen_mem_cvNormalize (hyphen_mem_rawKey _ _ _))

/-- C2: key extraction yields the same normalized key for the plain
filename, the XL-qualified filename, and the table row with an XL-qualified
`AbsEpisode` cell: the XL qualifier never blocks key equality. -/
theorem C2_xl_qualifier_key_equality :
    key_from_filename fnPlain = some xlKey ∧
    key_from_filename fnXl = some xlKey ∧
    key_from_row rowXl = xlKey := by
  refine ⟨by decide, by decide, by decide⟩

/-- C6 counterexample: the claim says neither named normalizer variant ever
raises, but the filename-key normalizer (`check_videos_presence.normalize`)
raises `TypeError` on the non-string input `None`, and the
matching-oriented normalizer (`er_matching.normalize`) raises
`AttributeError` on the truthy non-string input `5`. -/
theorem C6_counterexample :
    cvNormalizePy PyVal.noneV = Except.error PyExc.typeError ∧
    erNormalizePy (PyVal.intV 5) = Except.error PyExc.attributeError :=
  ⟨rfl, rfl⟩

/-- C6 amended: no normalizer raises on a string input and both named
variants map the empty string to the empty string; the matching-oriented
normalizer also returns the empty string on falsy non-strings (`None`,
`0`) but raises `AttributeError` on truthy non-strings; the filename-key
normalizer raises `TypeError` on every non-string; the third variant,
`normalize_title`, never raises at all. -/
theorem C6_amended_error_behavior :
    (∀ n : Int, ¬n = 0 →
      erNormalizePy (PyVal.intV n) = Except.error PyExc.attributeError) ∧
    (∀ v : PyVal, (∀ s, ¬v = PyVal.strV s) →
      cvNormalizePy v = Except.error PyExc.typeError) ∧
    erNormalizePy PyVal.noneV = Except.ok [] ∧
    erNormalizePy (PyVal.intV 0) = Except.ok [] ∧
    erNormalizePy (PyVal.strV []) = Except.ok [] ∧
    cvNormalizePy (PyVal.strV []) = Except.ok [] ∧
    (∀ s, erNormalizePy (PyVal.strV s) = Except.ok (erNormalize s)) ∧
    (∀ s, cvNormalizePy (PyVal.strV s) = Except.ok (cvNormalize s)) ∧
    (∀ v, ∃ res, normalizeTitlePy v = Except.ok res) := by
  refine ⟨fun n hn => ?_, fun v hv => ?_, rfl, rfl, rfl, rfl,
    fun s => rfl, fun s => rfl, fun v => ?_⟩
  · simp [erNormalizePy, hn]
  · cases v with
    | noneV => rfl
    | intV n => rfl
    | strV s => exact absurd rfl (hv s)
  · cases v with
    | noneV => exact ⟨[], rfl⟩
    | intV n => exact ⟨[], rfl⟩
    | strV s => exact ⟨normalize_title s, rfl⟩

/-- C6 witness: the amended behavior applied at the concrete inputs `5`
(matching-oriented variant) and `None` (filename-key variant). -/
theorem C6_amended_error_behavior_witness :
    erNormalizePy (PyVal.intV 5) = Except.error PyExc.attributeError ∧
    cvNormalizePy PyVal.noneV = Except.error PyExc.typeError :=
  ⟨C6_amended_error_behavior.1 5 (by decide),
    C6_amended_error_behavior.2.1 PyVal.noneV (fun s h => by cases h)⟩

/-- C7 counterexample: neither normalizer variant is idempotent on every
string.  The matching-oriented normalizer maps the capital sharp s to the
small sharp s (via `str.lower`), which a second pass expands to `ss`; the
filename-key normalizer removes a zero-width non-joiner standing between a
base letter and a combining acute accent, so a second pass's NFKC composes
the pair into the precomposed letter. -/
theorem C7_counterexample :
    erNormalize [capitalSharpS] = [smallSharpS] ∧
    erNormalize (erNormalize [capitalSharpS]) = ['s', 's'] ∧
    cvNormalize ['a', zwnj, acuteAccent] = ['a', acuteAccent] ∧
    cvNormalize (cvNormalize ['a', zwnj, acuteAccent]) = [aAcute] ∧
    ¬erNormalize (erNormalize [capitalSharpS]) = erNormalize [capitalSharpS] ∧
    ¬cvNormalize (cvNormalize ['a', zwnj, acuteAccent]) =
      cvNormalize ['a', zwnj, acuteAccent] := by
  refine ⟨by decide, by decide, by decide, by decide, by decide, by decide⟩

theorem fbmGo_fst_none {q : PyStr} :
    ∀ (eps : List Episode) (b : Option Episode) (s : ℚ),
      (fbmGo q b s eps).1 = none →
        b = none ∧ (fbmGo q b s eps).2 = s := by
  intro eps
  induction eps with
  | nil => intro b s h; exact ⟨h, rfl⟩
  | cons e rest ih =>
    intro b s h
    rw [fbmGo] at h ⊢
    by_cases hc : e.noPrefixTitle = []
    · rw [if_pos hc] at h ⊢; exact ih b s h
    · rw [if_neg hc] at h ⊢
      by_cases hw : contains_whole_query q e.noPrefixTitle = true
      · rw [if_pos hw] at h; cases h
      · rw [if_neg hw] at h ⊢
        by_cases hs : s < ratio q e.noPrefixTitle
        · rw [if_pos hs] at h
          rcases ih _ _ h with ⟨h1, -⟩
          cases h1
        · rw [if_neg hs] at h ⊢; exact ih b s h

theorem fbmGo_all_empty {q : PyStr} :
    ∀ (eps : List Episode), (∀ e ∈ eps, e.noPrefixTitle = []) →
      ∀ (b : Option Episode) (s : ℚ), fbmGo q b s eps = (b, s) := by
  intro eps
  induction eps with
  | nil => intro _ b s; rfl
  | cons e rest ih =>
    intro h b s
    rw [fbmGo, if_pos (h e (List.mem_cons_self _ _))]
    exact ih (fun e' he' => h e' (List.mem_cons_of_mem _ he')) b s

/-- C8: for every catalog, a query title that is empty, whitespace-only, or
that normalizes to the empty string after series-prefix stripping makes
`find_best_match` return `(none, 0.0)` without examining any catalog entry
(the result does not depend on the catalog at all). -/
theorem C8_empty_query_no_match :
    (∀ (t : PyStr) (eps : List Episode), erNormalize (stripSeries t) = [] →
      find_best_match t eps = (none, 0)) ∧
    (∀ t : PyStr, (∀ c ∈ t, isPyWs c = true) →
      erNormalize (stripSeries t) = []) ∧
    erNormalize (stripSeries []) = [] ∧
    erNormalize (stripSeries prefixOnlyTitle) = [] := by
  refine ⟨fun t eps h => ?_, fun t h => ?_, by decide, by decide⟩
  · rw [find_best_match, h]
    rfl
  · have hdrop : t.dropWhile isPyWs = [] := by
      rw [List.dropWhile_eq_nil_iff]
      exact h
    have hstrip : pyStrip t = [] := by
      rw [pyStrip, hdrop]; rfl
    cases ht : t with
    | nil => rfl
    | cons c rest =>
      rw [← ht]
      have hsp : seriesPreMatch t = none := by
        rw [seriesPreMatch, hdrop]
        rfl
      rw [stripSeries, if_neg (by rw [ht]; simp), hsp, hstrip]
      rfl

/-- C8 witness: concrete whitespace-only and prefix-only queries against a
non-empty catalog. -/
theorem C8_empty_query_no_match_witness :
    find_best_match wsOnlyTitle [epSample] = (none, 0) ∧
    find_best_match prefixOnlyTitle [epSample] = (none, 0) :=
  ⟨C8_empty_query_no_match.1 wsOnlyTitle [epSample]
      (C8_empty_query_no_match.2.1 wsOnlyTitle (by decide)),
    C8_empty_query_no_match.1 prefixOnlyTitle [epSample]
      C8_empty_query_no_match.2.2.2⟩

/-- C9: the MatchResult invariant: whenever `find_best_match` returns no
episode its confidence is exactly 0.0; in particular the empty catalog and
catalogs in which every entry's normalized prefix-stripped title is empty
yield `(none, 0.0)`. -/
theorem C9_none_implies_zero_confidence :
    (∀ (t : PyStr) (eps : List Episode),
      (find_best_match t eps).1 = none → (find_best_match t eps).2 = 0) ∧
    (∀ t : PyStr, find_best_match t [] = (none, 0)) ∧
    (∀ (t : PyStr) (eps : List Episode),
      (∀ e ∈ eps, e.noPrefixTitle = []) →
        find_best_match t eps = (none, 0)) := by
  refine ⟨fun t eps h => ?_, fun t => ?_, fun t eps he => ?_⟩
  · rw [find_best_match] at h ⊢
    by_cases hq : erNormalize (stripSeries t) = []
    · rw [if_pos hq]
    · rw [if_neg hq] at h ⊢
      exact (fbmGo_fst_none eps none 0 h).2
  · rw [find_best_match]
    by_cases hq : erNormalize (stripSeries t) = []
    · rw [if_pos hq]
    · rw [if_neg hq]; rfl
  · rw [find_best_match]
    by_cases hq : erNormalize (stripSeries t) = []
    · rw [if_pos hq]
    · rw [if_neg hq]
      exact fbmGo_all_empty eps he none 0

/-- C9 witness: the invariant applied to a non-trivial query against a
catalog whose single entry has an empty normalized title, and to the empty
catalog. -/
theorem C9_none_implies_zero_confidence_witness :
    (find_best_match gottTitle [epEmptyNorm]).2 = 0 ∧
    find_best_match gottTitle [] = (none, 0) ∧
    find_best_match gottTitle [epEmptyNorm] = (none, 0) :=
  ⟨C9_none_implies_zero_confidence.1 gottTitle [epEmptyNorm] (by decide),
    C9_none_implies_zero_confidence.2.1 gottTitle,
    C9_none_implies_zero_confidence.2.2 gottTitle [epEmptyNorm]
      (by decide)⟩

theorem commonLen_le_left : ∀ xs ys : PyStr, commonLen xs ys ≤ xs.length := by
  intro xs
  induction xs with
  | nil => intro ys; cases ys <;> simp [commonLen]
  | cons x xs ih =>
    intro ys
    cases ys with
    | nil => simp [commonLen]
    | cons y ys =>
      rw [commonLen]
      split
      · simpa using ih ys
      · simp

theorem commonLen_le_right : ∀ xs ys : PyStr, commonLen xs ys ≤ ys.length := by
  intro xs
  induction xs with
  | nil => intro ys; cases ys <;> simp [commonLen]
  | cons x xs ih =>
    intro ys
    cases ys with
    | nil => simp [commonLen]
    | cons y ys =>
      rw [commonLen]
      split
      · simpa using ih ys
      · simp

theorem take_commonLen_eq : ∀ xs ys : PyStr,
    xs.take (commonLen xs ys) = ys.take (commonLen xs ys) := by
  intro xs
  induction xs with
  | nil => intro ys; cases ys <;> simp [commonLen]
  | cons x xs ih =>
    intro ys
    cases ys with
    | nil => simp [commonLen]
    | cons y ys =>
      rw [commonLen]
      split
      · rename_i hxy
        simp [List.take_succ_cons, hxy, ih ys]
      · simp

/-- The well-formedness invariant of matching-block candidates. -/
def flmGood (a b : PyStr) (t : Nat × Nat × Nat) : Prop :=
  t.1 + t.2.2 ≤ a.length ∧ t.2.1 + t.2.2 ≤ b.length ∧
    (a.drop t.1).take t.2.2 = (b.drop t.2.1).take t.2.2

theorem flm_good (a b : PyStr) : flmGood a b (flm a b) := by
  rw [flm]
  have hstep : ∀ (l : List (Nat × Nat × Nat)) (init : Nat × Nat × Nat),
      flmGood a b init → (∀ c ∈ l, flmGood a b c) →
      flmGood a b (l.foldl
        (fun best c => if best.2.2 < c.2.2 then c else best) init) := by
    intro l
    induction l with
    | nil => intro init h _; exact h
    | cons c rest ih =>
      intro init hinit hall
      rw [List.foldl_cons]
      refine ih _ ?_ (fun d hd => hall d (List.mem_cons_of_mem _ hd))
      split
      · exact hall c (List.mem_cons_self _ _)
      · exact hinit
  refine hstep _ _ ⟨by simp, by simp, by simp⟩ ?_
  intro c hc
  rcases List.mem_flatMap.mp hc with ⟨i, hi, hc2⟩
  rcases List.mem_map.mp hc2 with ⟨j, hj, rfl⟩
  have hi' : i < a.length := List.mem_range.mp hi
  have hj' : j < b.length := List.mem_range.mp hj
  unfold flmGood
  dsimp only
  refine ⟨?_, ?_, ?_⟩
  · have := commonLen_le_left (a.drop i) (b.drop j)
    rw [List.length_drop] at this
    omega
  · have := commonLen_le_right (a.drop i) (b.drop j)
    rw [List.length_drop] at this
    omega
  · exact take_commonLen_eq _ _

theorem matchesCntF_le_left :
    ∀ (fuel : Nat) (a b : PyStr), matchesCntF fuel a b ≤ a.length := by
  intro fuel
  induction fuel with
  | zero => intro a b; simp [matchesCntF]
  | succ fuel ih =>
    intro a b
    rw [matchesCntF]
    split
    · simp
    · rcases flm_good a b with ⟨h1, h2, -⟩
      have hia : (flm a b).1 ≤ a.length := le_trans (Nat.le_add_right _ _) h1
      have hL := ih (a.take (flm a b).1) (b.take (flm a b).2.1)
      have hR := ih (a.drop ((flm a b).1 + (flm a b).2.2))
        (b.drop ((flm a b).2.1 + (flm a b).2.2))
      rw [List.length_take, min_eq_left hia] at hL
      rw [List.length_drop] at hR
      omega

theorem matchesCntF_le_right :
    ∀ (fuel : Nat) (a b : PyStr), matchesCntF fuel a b ≤ b.length := by
  intro fuel
  induction fuel with
  | zero => intro a b; simp [matchesCntF]
  | succ fuel ih =>
    intro a b
    rw [matchesCntF]
    split
    · simp
    · rcases flm_good a b with ⟨h1, h2, -⟩
      have hjb : (flm a b).2.1 ≤ b.length := le_trans (Nat.le_add_right _ _) h2
      have hL := ih (a.take (flm a b).1) (b.take (flm a b).2.1)
      have hR := ih (a.drop ((flm a b).1 + (flm a b).2.2))
        (b.drop ((flm a b).2.1 + (flm a b).2.2))
      rw [List.length_take, min_eq_left hjb] at hL
      rw [List.length_drop] at hR
      omega

theorem matchesCntF_full :
    ∀ (fuel : Nat) (a b : PyStr),
      matchesCntF fuel a b = a.length → matchesCntF fuel a b = b.length →
      a = b := by
  intro fuel
  induction fuel with
  | zero =>
    intro a b ha hb
    rw [matchesCntF] at ha hb
    rw [List.eq_nil_of_length_eq_zero ha.symm,
      List.eq_nil_of_length_eq_zero hb.symm]
  | succ fuel ih =>
    intro a b ha hb
    rw [matchesCntF] at ha hb
    by_cases hk : (flm a b).2.2 = 0
    · rw [if_pos hk] at ha hb
      rw [List.eq_nil_of_length_eq_zero ha.symm,
        List.eq_nil_of_length_eq_zero hb.symm]
    · rw [if_neg hk] at ha hb
      rcases flm_good a b with ⟨h1, h2, hmid⟩
      have hia : (flm a b).1 ≤ a.length := le_trans (Nat.le_add_right _ _) h1
      have hjb : (flm a b).2.1 ≤ b.length := le_trans (Nat.le_add_right _ _) h2
      generalize hi : (flm a b).1 = i at *
      generalize hj : (flm a b).2.1 = j at *
      generalize hkk : (flm a b).2.2 = k at *
      have hmLa := matchesCntF_le_left fuel (a.take i) (b.take j)
      have hmLb := matchesCntF_le_right fuel (a.take i) (b.take j)
      have hmRa := matchesCntF_le_left fuel (a.drop (i + k)) (b.drop (j + k))
      have hmRb := matchesCntF_le_right fuel (a.drop (i + k)) (b.drop (j + k))
      rw [List.length_take, min_eq_left hia] at hmLa
      rw [List.length_take, min_eq_left hjb] at hmLb
      rw [List.length_drop] at hmRa hmRb
      have hij : i = j := by omega
      have htake : a.take i = b.take j := by
        refine ih _ _ ?_ ?_
        · rw [List.length_take, min_eq_left hia]; omega
        · rw [List.length_take, min_eq_left hjb]; omega
      have hdrop : a.drop (i + k) = b.drop (j + k) := by
        refine ih _ _ ?_ ?_
        · rw [List.length_drop]; omega
        · rw [List.length_drop]; omega
      have hsplit : a = a.take i ++ ((a.drop i).take k ++ a.drop (i + k)) := by
        rw [← List.drop_drop]
        rw [List.take_append_drop, List.take_append_drop]
      have hsplitb : b = b.take j ++ ((b.drop j).take k ++ b.drop (j + k)) := by
        rw [← List.drop_drop]
        rw [List.take_append_drop, List.take_append_drop]
      rw [hsplit, hsplitb, htake, hmid, hdrop]

theorem matchesCnt_le_left (a b : PyStr) : matchesCnt a b ≤ a.length :=
  matchesCntF_le_left _ a b

theorem matchesCnt_le_right (a b : PyStr) : matchesCnt a b ≤ b.length :=
  matchesCntF_le_right _ a b

theorem ratio_lt_one {a b : PyStr} (hne : ¬a = b) : ratio a b < 1 := by
  rw [ratio]
  split
  · rename_i h
    exfalso
    apply hne
    have ha0 : a.length = 0 := by omega
    have hb0 : b.length = 0 := by omega
    rw [List.eq_nil_of_length_eq_zero ha0, List.eq_nil_of_length_eq_zero hb0]
  · rename_i h
    have hlt : 2 * matchesCnt a b < a.length + b.length := by
      have h1 := matchesCnt_le_left a b
      have h2 := matchesCnt_le_right a b
      by_contra hge
      have he1 : matchesCnt a b = a.length := by omega
      have he2 : matchesCnt a b = b.length := by omega
      exact hne (matchesCntF_full _ a b he1 he2)
    rw [div_lt_one (by
      have : 0 < a.length + b.length := by omega
      exact_mod_cast this)]
    exact_mod_cast hlt

theorem contains_whole_query_self {q : PyStr} (hq : ¬q = []) :
    contains_whole_query q q = true := by
  rw [contains_whole_query, if_neg (by simp [hq])]
  rw [isSubstring]
  rw [List.any_eq_true]
  refine ⟨0, List.mem_range.mpr (by omega), ?_⟩
  rw [List.drop_zero]
  exact List.isPrefixOf_iff_prefix.mpr List.prefix_rfl

theorem contains_ne_nil {q c : PyStr}
    (h : contains_whole_query q c = true) : ¬q = [] ∧ ¬c = [] := by
  rw [contains_whole_query] at h
  by_cases hq : q = []
  · rw [if_pos (by simp [hq])] at h; cases h
  · by_cases hc : c = []
    · rw [if_pos (by simp [hc])] at h; cases h
    · exact ⟨hq, hc⟩

theorem fbmGo_no_hit {q : PyStr} (hq : ¬q = []) :
    ∀ (eps : List Episode) (b : Option Episode) (s : ℚ),
      (∀ e ∈ eps, contains_whole_query q e.noPrefixTitle = false) →
      s < 1 → (fbmGo q b s eps).2 < 1 := by
  intro eps
  induction eps with
  | nil => intro b s _ hs; exact hs
  | cons e rest ih =>
    intro b s hall hs
    rw [fbmGo]
    by_cases hcand : e.noPrefixTitle = []
    · rw [if_pos hcand]
      exact ih b s (fun e' he' => hall e' (List.mem_cons_of_mem _ he')) hs
    · rw [if_neg hcand,
        if_neg (by rw [hall e (List.mem_cons_self _ _)]; simp)]
      have hne : ¬q = e.noPrefixTitle := by
        intro hcontr
        have hself := contains_whole_query_self hq
        have hfalse := hall e (List.mem_cons_self _ _)
        rw [← hcontr] at hfalse
        rw [hself] at hfalse
        cases hfalse
      have hr : ratio q e.noPrefixTitle < 1 := ratio_lt_one hne
      by_cases hlt : s < ratio q e.noPrefixTitle
      · rw [if_pos hlt]
        exact ih _ _ (fun e' he' => hall e' (List.mem_cons_of_mem _ he')) hr
      · rw [if_neg hlt]
        exact ih b s (fun e' he' => hall e' (List.mem_cons_of_mem _ he')) hs

theorem fbmGo_first_hit {q : PyStr} :
    ∀ (pre : List Episode) (e₀ : Episode) (post : List Episode)
      (b : Option Episode) (s : ℚ),
      (∀ e ∈ pre, contains_whole_query q e.noPrefixTitle = false) →
      contains_whole_query q e₀.noPrefixTitle = true →
      fbmGo q b s (pre ++ e₀ :: post) = (some e₀, 1) := by
  intro pre
  induction pre with
  | nil =>
    intro e₀ post b s _ hhit
    rw [List.nil_append, fbmGo, if_neg (contains_ne_nil hhit).2,
      if_pos hhit]
  | cons p pre' ih =>
    intro e₀ post b s hpre hhit
    rw [List.cons_append, fbmGo]
    by_cases hcand : p.noPrefixTitle = []
    · rw [if_pos hcand]
      exact ih e₀ post b s
        (fun e he => hpre e (List.mem_cons_of_mem _ he)) hhit
    · rw [if_neg hcand,
        if_neg (by rw [hpre p (List.mem_cons_self _ _)]; simp)]
      by_cases hlt : s < ratio q p.noPrefixTitle
      · rw [if_pos hlt]
        exact ih e₀ post _ _
          (fun e he => hpre e (List.mem_cons_of_mem _ he)) hhit
      · rw [if_neg hlt]
        exact ih e₀ post b s
          (fun e he => hpre e (List.mem_cons_of_mem _ he)) hhit

/-- C1: for every query title and catalog, `find_best_match` returns
confidence exactly 1.0 if and only if some catalog entry's normalized,
prefix-stripped title contains the normalized, prefix-stripped query as a
whole-token run; in that case the returned episode is the first such entry
in catalog iteration order (`List.find?`), the entries after the first hit
are never examined (the result is the same for every tail), and the
similarity fallback never produces a confidence of 1.0. -/
theorem C1_hard_containment_rule (t : PyStr) (eps : List Episode) :
    (((find_best_match t eps).2 = 1) ↔
      (∃ e ∈ eps, contains_whole_query
        (erNormalize (stripSeries t)) e.noPrefixTitle = true)) ∧
    (∀ e₀, eps.find? (fun e => contains_whole_query
        (erNormalize (stripSeries t)) e.noPrefixTitle) = some e₀ →
      find_best_match t eps = (some e₀, 1)) ∧
    (∀ pre e₀ post',
      (∀ e ∈ pre, contains_whole_query
        (erNormalize (stripSeries t)) e.noPrefixTitle = false) →
      contains_whole_query
        (erNormalize (stripSeries t)) e₀.noPrefixTitle = true →
      find_best_match t (pre ++ e₀ :: post') = (some e₀, 1)) := by
  set q := erNormalize (stripSeries t) with hqdef
  have hpart3 : ∀ pre e₀ post',
      (∀ e ∈ pre, contains_whole_query q e.noPrefixTitle = false) →
      contains_whole_query q e₀.noPrefixTitle = true →
      find_best_match t (pre ++ e₀ :: post') = (some e₀, 1) := by
    intro pre e₀ post' hpre hhit
    rw [find_best_match, ← hqdef,
      if_neg (contains_ne_nil hhit).1]
    exact fbmGo_first_hit pre e₀ post' none 0 hpre hhit
  have hpart2 : ∀ e₀, eps.find? (fun e => contains_whole_query
      q e.noPrefixTitle) = some e₀ →
      find_best_match t eps = (some e₀, 1) := by
    intro e₀ hfind
    rcases List.find?_eq_some.mp hfind with ⟨hhit, pre, post, heps, hpre⟩
    rw [heps]
    exact hpart3 pre e₀ post (fun e he => by simpa using hpre e he) hhit
  refine ⟨⟨fun hconf => ?_, fun hex => ?_⟩, hpart2, hpart3⟩
  · by_contra hnex
    push_neg at hnex
    have hall : ∀ e ∈ eps, contains_whole_query q e.noPrefixTitle = false :=
      fun e he => by
        have := hnex e he
        revert this
        cases contains_whole_query q e.noPrefixTitle <;> simp
    rw [find_best_match, ← hqdef] at hconf
    by_cases hqnil : q = []
    · rw [if_pos hqnil] at hconf
      norm_num at hconf
    · rw [if_neg hqnil] at hconf
      have := fbmGo_no_hit hqnil eps none 0 hall (by norm_num)
      rw [hconf] at this
      exact lt_irrefl _ this
  · have hsome : (eps.find? (fun e => contains_whole_query
        q e.noPrefixTitle)).isSome := by
      rw [List.find?_isSome]
      rcases hex with ⟨e, he, hhit⟩
      exact ⟨e, he, hhit⟩
    rcases Option.isSome_iff_exists.mp hsome with ⟨e₀, hfind⟩
    rw [hpart2 e₀ hfind]

/-- C1 witness: the containment rule applied to a concrete query whose
normalization is contained in the catalog's first entry. -/
theorem C1_hard_containment_rule_witness :
    find_best_match gottTitle [epSample] = (some epSample, 1) :=
  (C1_hard_containment_rule gottTitle [epSample]).2.1 epSample (by decide)

theorem takeWhile_append_of_all {p : Char → Bool} :
    ∀ {xs : PyStr}, (∀ c ∈ xs, p c = true) → ∀ (ys : PyStr),
      (xs ++ ys).takeWhile p = xs ++ ys.takeWhile p := by
  intro xs
  induction xs with
  | nil => intro _ ys; simp
  | cons x xs ih =>
    intro h ys
    rw [List.cons_append, List.takeWhile_cons_of_pos (h x (by simp)),
      ih (fun c hc => h c (by simp [hc])) ys, List.cons_append]

theorem dropWhile_append_of_all {p : Char → Bool} :
    ∀ {xs : PyStr}, (∀ c ∈ xs, p c = true) → ∀ (ys : PyStr),
      (xs ++ ys).dropWhile p = ys.dropWhile p := by
  intro xs
  induction xs with
  | nil => intro _ ys; simp
  | cons x xs ih =>
    intro h ys
    rw [List.cons_append, List.dropWhile_cons_of_pos (h x (by simp)),
      ih (fun c hc => h c (by simp [hc])) ys]

theorem digit_not_ws {c : Char} (h : isAsciiDigitC c = true) :
    isPyWs c = false := by
  rw [isAsciiDigitC] at h
  rw [isPyWs]
  simp only [Bool.and_eq_true, decide_eq_true_eq] at h
  simp only [Bool.or_eq_false_iff, Bool.and_eq_false_iff,
    decide_eq_false_iff_not, beq_eq_false_iff_ne, ne_eq]
  omega

theorem digit_isWord {c : Char} (h : isAsciiDigitC c = true) :
    isWordChar c = true := by
  rw [isWordChar, isAlnumChar]
  rw [isAsciiDigitC] at h
  simp only [Bool.and_eq_true, decide_eq_true_eq] at h
  rw [if_pos (by omega)]
  simp [isAsciiDigitC]
  omega

theorem parseSeToken_none {c : Char} (rest : PyStr)
    (h : (c = 'S' ∨ c = 's') → False) : parseSeToken (c :: rest) = none := by
  rw [parseSeToken]
  rw [if_neg (by simpa using h)]

theorem tailMatch_none_of_se_none {prev : Option Char} {s : PyStr}
    (h : parseSeToken s = none) : tailMatch prev s = none := by
  unfold tailMatch
  split
  · rfl
  · rw [h]

theorem tailMatch_none_of_word {p : Char} (s : PyStr)
    (h : isWordChar p = true) : tailMatch (some p) s = none := by
  unfold tailMatch
  rw [if_pos (show prevIsWord (some p) = true from h)]

theorem scanPrefix_step {prev : Option Char} {c : Char} {rest : PyStr}
    (h : tailMatch prev (c :: rest) = none) (hn : ¬c = '\n') :
    scanPrefix prev (c :: rest) = scanPrefix (some c) rest := by
  rw [scanPrefix, h, if_neg hn]

theorem takeDigits_cons {n : Nat} {c : Char} (rest : PyStr)
    (h : isAsciiDigitC c = true) :
    takeDigits (n + 1) (c :: rest) =
      (takeDigits n rest).map (fun p => (c :: p.1, p.2)) := by
  rw [takeDigits, if_pos h]
  cases takeDigits n rest with
  | none => rfl
  | some p => rfl

theorem natDigitsF_all_digits :
    ∀ (fuel n : Nat), ∀ c ∈ natDigitsF fuel n, isAsciiDigitC c = true := by
  intro fuel
  induction fuel with
  | zero => intro n c hc; cases hc
  | succ fuel ih =>
    intro n c hc
    rw [natDigitsF] at hc
    split at hc
    · rename_i hn
      rcases List.mem_singleton.mp hc with rfl
      rw [isAsciiDigitC]
      interval_cases n <;> decide
    · rcases List.mem_append.mp hc with h1 | h1
      · exact ih _ c h1
      · rcases List.mem_singleton.mp h1 with rfl
        rw [isAsciiDigitC]
        have hm : n % 10 < 10 := Nat.mod_lt _ (by omega)
        interval_cases hh : (n % 10) <;> decide

theorem natDigitsF_ne_nil :
    ∀ (fuel n : Nat), 0 < fuel → ¬natDigitsF fuel n = [] := by
  intro fuel n hf
  cases fuel with
  | zero => omega
  | succ fuel =>
    rw [natDigitsF]
    split
    · simp
    · simp

theorem pyIntStr_pos_digits {n : Int} (h : 0 ≤ n) :
    (∀ c ∈ pyIntStr n, isAsciiDigitC c = true) ∧ ¬pyIntStr n = [] := by
  rw [pyIntStr, if_neg (by omega)]
  exact ⟨fun c hc => natDigitsF_all_digits _ _ c hc,
    natDigitsF_ne_nil _ _ (by omega)⟩

theorem sepHyphen_spaced {c : Char} {rest : PyStr}
    (hc : isPyWs c = false) :
    sepHyphen (' ' :: '-' :: ' ' :: c :: rest) = some (c :: rest) := by
  rw [sepHyphen]
  rw [List.dropWhile_cons_of_pos (by decide),
    List.dropWhile_cons_of_neg (by decide)]
  dsimp only
  rw [if_pos rfl]
  rw [List.dropWhile_cons_of_pos (by decide),
    List.dropWhile_cons_of_neg (by simp [hc])]

theorem sepHyphen_spaced_isSome (tt : PyStr) :
    (sepHyphen (' ' :: '-' :: ' ' :: tt)).isSome = true := by
  rw [sepHyphen, List.dropWhile_cons_of_pos (by decide),
    List.dropWhile_cons_of_neg (by decide)]
  dsimp only
  rw [if_pos rfl]
  rfl

/-- C3: Filename Builder round-trip: for every episode record whose fields
are all populated and well-formed (season/episode code `S<1-4 digits>E<1-4
digits>`, ISO `yyyy-mm-dd` date, positive absolute episode number),
`key_from_filename` applied to the built filename succeeds and returns
exactly the normalized key
`normalize("<season_episode_code> - <air_date_iso> - <abs_episode> - ")`,
whatever the title. -/
theorem C3_filename_roundtrip (ep : Episode) (d1 d2 : PyStr)
    (y1 y2 y3 y4 m1 m2 t1 t2 : Char) (n : Int)
    (hcode : ep.season_episode_code = 'S' :: d1 ++ 'E' :: d2)
    (hd1a : ∀ c ∈ d1, isAsciiDigitC c = true)
    (hd1b : 1 ≤ d1.length) (hd1c : d1.length ≤ 4)
    (hd2a : ∀ c ∈ d2, isAsciiDigitC c = true)
    (hd2b : 1 ≤ d2.length) (hd2c : d2.length ≤ 4)
    (hdate : ep.air_date_iso = [y1, y2, y3, y4, '-', m1, m2, '-', t1, t2])
    (hy1 : isAsciiDigitC y1 = true) (hy2 : isAsciiDigitC y2 = true)
    (hy3 : isAsciiDigitC y3 = true) (hy4 : isAsciiDigitC y4 = true)
    (hm1 : isAsciiDigitC m1 = true) (hm2 : isAsciiDigitC m2 = true)
    (ht1 : isAsciiDigitC t1 = true) (ht2 : isAsciiDigitC t2 = true)
    (habs : ep.abs_episode = some n) (hpos : 0 < n)
    (htitle : ¬ep.title = []) :
    key_from_filename (build_new_filename ep) =
      some (cvNormalize (rawKey ep.season_episode_code ep.air_date_iso
        (pyIntStr n))) := by
  obtain ⟨habsdig, habsnn⟩ := pyIntStr_pos_digits (le_of_lt hpos)
  obtain ⟨a0, as, hA⟩ : ∃ a0 as, pyIntStr n = a0 :: as := by
    cases hA : pyIntStr n with
    | nil => exact absurd hA habsnn
    | cons a0 as => exact ⟨a0, as, rfl⟩
  have ha0 : isAsciiDigitC a0 = true := habsdig a0 (by rw [hA]; simp)
  rw [build_new_filename, habs, hcode, hdate]
  rw [if_neg (by simp), if_neg (by simp), if_neg htitle]
  rw [key_from_filename]
  simp only [seriesLit, List.cons_append, List.nil_append, List.append_assoc]
  rw [List.dropWhile_cons_of_neg (by decide)]
  rw [scanPrefix_step (tailMatch_none_of_se_none
    (parseSeToken_none _ (by decide))) (by decide)]
  rw [scanPrefix_step (tailMatch_none_of_se_none
    (parseSeToken_none _ (by decide))) (by decide)]
  rw [scanPrefix_step (tailMatch_none_of_word _ (by decide)) (by decide)]
  rw [scanPrefix_step (tailMatch_none_of_se_none
    (parseSeToken_none _ (by decide))) (by decide)]
  rw [scanPrefix_step (tailMatch_none_of_se_none
    (parseSeToken_none _ (by decide))) (by decide)]
  rw [scanPrefix_step (tailMatch_none_of_se_none
    (parseSeToken_none _ (by decide))) (by decide)]
  rw [scanPrefix_step (tailMatch_none_of_se_none
    (parseSeToken_none _ (by decide))) (by decide)]
  rw [scanPrefix_step (tailMatch_none_of_se_none
    (parseSeToken_none _ (by decide))) (by decide)]
  rw [scanPrefix_step (tailMatch_none_of_se_none
    (parseSeToken_none _ (by decide))) (by decide)]
  rw [scanPrefix_step (tailMatch_none_of_se_none
    (parseSeToken_none _ (by decide))) (by decide)]
  rw [scanPrefix_step (tailMatch_none_of_se_none
    (parseSeToken_none _ (by decide))) (by decide)]
  rw [scanPrefix_step (tailMatch_none_of_se_none
    (parseSeToken_none _ (by decide))) (by decide)]
  rw [scanPrefix_step (tailMatch_none_of_se_none
    (parseSeToken_none _ (by decide))) (by decide)]
  rw [scanPrefix_step (tailMatch_none_of_se_none
    (parseSeToken_none _ (by decide))) (by decide)]
  rw [scanPrefix_step (tailMatch_none_of_se_none
    (parseSeToken_none _ (by decide))) (by decide)]
  rw [scanPrefix_step (tailMatch_none_of_se_none
    (parseSeToken_none _ (by decide))) (by decide)]
  rw [scanPrefix_step (tailMatch_none_of_se_none
    (parseSeToken_none _ (by decide))) (by decide)]
  rw [scanPrefix_step (tailMatch_none_of_se_none
    (parseSeToken_none _ (by decide))) (by decide)]
  rw [scanPrefix_step (tailMatch_none_of_se_none
    (parseSeToken_none _ (by decide))) (by decide)]
  have hse : parseSeToken ('S' :: (d1 ++ 'E' :: (d2 ++ ' ' :: '-' :: ' ' ::
      (y1 :: y2 :: y3 :: y4 :: '-' :: m1 :: m2 :: '-' :: t1 :: t2 ::
        ' ' :: '-' :: ' ' :: (pyIntStr n ++ ' ' :: '-' :: ' ' ::
          (sanitize_for_filename ep.title ++ mp4Ext))))))
      = some ('S' :: (d1 ++ 'E' :: d2), ' ' :: '-' :: ' ' ::
        (y1 :: y2 :: y3 :: y4 :: '-' :: m1 :: m2 :: '-' :: t1 :: t2 ::
          ' ' :: '-' :: ' ' :: (pyIntStr n ++ ' ' :: '-' :: ' ' ::
            (sanitize_for_filename ep.title ++ mp4Ext)))) := by
    rw [parseSeToken]
    rw [if_pos (by decide)]
    rw [takeWhile_append_of_all hd1a, dropWhile_append_of_all hd1a]
    rw [List.takeWhile_cons_of_neg (by decide),
      List.dropWhile_cons_of_neg (by decide), List.append_nil]
    rw [if_pos (by
      simp only [Bool.and_eq_true, decide_eq_true_eq]
      exact ⟨hd1b, hd1c⟩)]
    dsimp only
    rw [if_pos (by decide)]
    rw [takeWhile_append_of_all hd2a, dropWhile_append_of_all hd2a]
    rw [List.takeWhile_cons_of_neg (by decide),
      List.dropWhile_cons_of_neg (by decide), List.append_nil]
    rw [if_pos (by
      simp only [headIsWord, Bool.and_eq_true, decide_eq_true_eq]
      refine ⟨⟨hd2b, hd2c⟩, ?_⟩
      decide)]
  rw [scanPrefix, tailMatch, if_neg (by decide), hse]
  dsimp only
  rw [sepHyphen_spaced (digit_not_ws hy1)]
  dsimp only
  have hdatetok : parseDateToken (y1 :: y2 :: y3 :: y4 :: '-' :: m1 :: m2 ::
      '-' :: t1 :: t2 :: ' ' :: '-' :: ' ' :: (pyIntStr n ++ ' ' :: '-' ::
        ' ' :: (sanitize_for_filename ep.title ++ mp4Ext)))
      = some ([y1, y2, y3, y4, '-', m1, m2, '-', t1, t2],
        ' ' :: '-' :: ' ' :: (pyIntStr n ++ ' ' :: '-' :: ' ' ::
          (sanitize_for_filename ep.title ++ mp4Ext))) := by
    rw [parseDateToken]
    simp [takeDigits, hy1, hy2, hy3, hy4, hm1, hm2, ht1, ht2]
  rw [hdatetok]
  dsimp only
  rw [hA, List.cons_append, sepHyphen_spaced (digit_not_ws ha0),
    ← List.cons_append, ← hA]
  dsimp only
  rw [takeWhile_append_of_all habsdig, dropWhile_append_of_all habsdig]
  rw [List.takeWhile_cons_of_neg (by decide),
    List.dropWhile_cons_of_neg (by decide), List.append_nil]
  rw [if_neg (fun h => habsnn (List.eq_nil_of_length_eq_zero h))]
  rw [if_pos (by rw [xlThenSep, sepHyphen_spaced_isSome, Bool.or_true])]
  try dsimp only
  try simp only [rawKey, List.cons_append, List.nil_append, List.append_assoc]

theorem toNat_ofNat {n : Nat} (h : n < 0xD800) : (Char.ofNat n).toNat = n := by
  rw [Char.ofNat, dif_pos (Or.inl (by exact_mod_cast h))]
  rfl

theorem map_self_of {f : Char → Char} :
    ∀ {l : PyStr}, (∀ c ∈ l, f c = c) → l.map f = l := by
  intro l
  induction l with
  | nil => intro _; rfl
  | cons c rest ih =>
    intro h
    rw [List.map_cons, h c (by simp), ih (fun d hd => h d (by simp [hd]))]

theorem flatMap_self_of {f : Char → List Char} :
    ∀ {l : PyStr}, (∀ c ∈ l, f c = [c]) → l.flatMap f = l := by
  intro l
  induction l with
  | nil => intro _; rfl
  | cons c rest ih =>
    intro h
    rw [List.flatMap_cons, h c (by simp),
      ih (fun d hd => h d (by simp [hd]))]
    rfl

theorem mem_of_wsCollapseGo {c : Char} :
    ∀ (l : PyStr) (fl : Bool), c ∈ wsCollapseGo fl l → c = ' ' ∨ c ∈ l := by
  intro l
  induction l with
  | nil => intro fl h; cases h
  | cons d rest ih =>
    intro fl h
    rw [wsCollapseGo] at h
    by_cases hd : isPyWs d
    · rw [if_pos hd] at h
      cases fl with
      | true =>
        rw [if_pos rfl] at h
        rcases ih true h with h1 | h1
        · exact Or.inl h1
        · exact Or.inr (List.mem_cons_of_mem _ h1)
      | false =>
        rw [if_neg (by decide)] at h
        rcases List.mem_cons.mp h with h1 | h1
        · exact Or.inl h1
        · rcases ih true h1 with h2 | h2
          · exact Or.inl h2
          · exact Or.inr (List.mem_cons_of_mem _ h2)
    · rw [if_neg hd] at h
      rcases List.mem_cons.mp h with h1 | h1
      · exact Or.inr (h1 ▸ List.mem_cons_self _ _)
      · rcases ih false h1 with h2 | h2
        · exact Or.inl h2
        · exact Or.inr (List.mem_cons_of_mem _ h2)

theorem mem_of_dropTrailingWs {c : Char} :
    ∀ {l : PyStr}, c ∈ dropTrailingWs l → c ∈ l := by
  intro l
  induction l with
  | nil => intro h; cases h
  | cons d rest ih =>
    intro h
    rw [dropTrailingWs] at h
    split at h
    · cases h
    · rcases List.mem_cons.mp h with h1 | h1
      · exact h1 ▸ List.mem_cons_self _ _
      · exact List.mem_cons_of_mem _ (ih h1)

theorem mem_of_pyStrip {c : Char} {l : PyStr} (h : c ∈ pyStrip l) : c ∈ l :=
  (List.dropWhile_sublist _).mem (mem_of_dropTrailingWs h)

theorem collapsedB_cons_of {c : Char} {X : PyStr}
    (h1 : (!isPyWs c || c = ' ') = true)
    (h2 : ∀ x, X.head? = some x → (isPyWs c && isPyWs x) = false)
    (h3 : collapsedB X = true) : collapsedB (c :: X) = true := by
  cases X with
  | nil => exact h1
  | cons x xs =>
    rw [collapsedB]
    simp only [Bool.and_eq_true]
    exact ⟨⟨h1, by simp [h2 x rfl]⟩, h3⟩

theorem collapsedB_tail {c : Char} {X : PyStr}
    (h : collapsedB (c :: X) = true) : collapsedB X = true := by
  cases X with
  | nil => rfl
  | cons x xs =>
    rw [collapsedB] at h
    simp only [Bool.and_eq_true] at h
    exact h.2

theorem collapsedB_head_props {c : Char} {X : PyStr}
    (h : collapsedB (c :: X) = true) :
    (!isPyWs c || c = ' ') = true ∧
      (∀ x, X.head? = some x → (isPyWs c && isPyWs x) = false) := by
  cases X with
  | nil => exact ⟨h, fun x hx => by cases hx⟩
  | cons x xs =>
    rw [collapsedB] at h
    rcases Bool.and_eq_true_iff.mp h with ⟨h1, -⟩
    rcases Bool.and_eq_true_iff.mp h1 with ⟨h11, h12⟩
    refine ⟨h11, fun x' hx' => ?_⟩
    have hxx : x = x' := Option.some.inj (by simpa using hx')
    subst hxx
    cases hb : (isPyWs c && isPyWs x) with
    | false => rfl
    | true => rw [hb] at h12; cases h12

theorem wsCollapseGo_true_head :
    ∀ (l : PyStr) (x : Char), (wsCollapseGo true l).head? = some x →
      isPyWs x = false := by
  intro l
  induction l with
  | nil => intro x h; cases h
  | cons d rest ih =>
    intro x h
    rw [wsCollapseGo] at h
    by_cases hd : isPyWs d
    · rw [if_pos hd] at h
      exact ih x (by simpa using h)
    · rw [if_neg hd] at h
      rcases Option.some.inj h with rfl
      simpa using hd

theorem collapsedB_wsCollapseGo :
    ∀ (l : PyStr) (fl : Bool), collapsedB (wsCollapseGo fl l) = true := by
  intro l
  induction l with
  | nil => intro fl; rfl
  | cons d rest ih =>
    intro fl
    rw [wsCollapseGo]
    by_cases hd : isPyWs d
    · rw [if_pos hd]
      cases fl with
      | true => simpa using ih true
      | false =>
        rw [if_neg (by decide)]
        refine collapsedB_cons_of (by decide) ?_ (ih true)
        intro x hx
        rw [wsCollapseGo_true_head rest x hx]
        simp
    · rw [if_neg hd]
      refine collapsedB_cons_of (by simp [hd]) ?_ (ih false)
      intro x hx
      simp [hd]

theorem head_dropWhile_ws :
    ∀ (l : PyStr) (x : Char), (l.dropWhile isPyWs).head? = some x →
      isPyWs x = false := by
  intro l
  induction l with
  | nil => intro x h; cases h
  | cons d rest ih =>
    intro x h
    by_cases hd : isPyWs d
    · rw [List.dropWhile_cons_of_pos hd] at h
      exact ih x h
    · rw [List.dropWhile_cons_of_neg hd] at h
      rcases Option.some.inj h with rfl
      simpa using hd

theorem collapsedB_dropWhile {l : PyStr} (h : collapsedB l = true) :
    collapsedB (l.dropWhile isPyWs) = true := by
  induction l with
  | nil => rfl
  | cons d rest ih =>
    by_cases hd : isPyWs d
    · rw [List.dropWhile_cons_of_pos hd]
      exact ih (collapsedB_tail h)
    · rwa [List.dropWhile_cons_of_neg hd]

theorem dtw_head :
    ∀ (l : PyStr), dropTrailingWs l = [] ∨
      (dropTrailingWs l).head? = l.head? := by
  intro l
  cases l with
  | nil => exact Or.inl rfl
  | cons d rest =>
    rw [dropTrailingWs]
    split
    · exact Or.inl rfl
    · exact Or.inr rfl

theorem collapsedB_dtw :
    ∀ {l : PyStr}, collapsedB l = true →
      collapsedB (dropTrailingWs l) = true := by
  intro l
  induction l with
  | nil => intro _; rfl
  | cons d rest ih =>
    intro h
    rw [dropTrailingWs]
    split
    · rfl
    · rcases collapsedB_head_props h with ⟨hp1, hp2⟩
      refine collapsedB_cons_of hp1 ?_ (ih (collapsedB_tail h))
      intro x hx
      rcases dtw_head rest with h1 | h1
      · rw [h1] at hx; cases hx
      · exact hp2 x (h1 ▸ hx)

theorem wsCollapseGo_true_eq_false {l : PyStr}
    (h : ∀ x, l.head? = some x → isPyWs x = false) :
    wsCollapseGo true l = wsCollapseGo false l := by
  cases l with
  | nil => rfl
  | cons d rest =>
    rw [wsCollapseGo, wsCollapseGo, if_neg (by simp [h d rfl]),
      if_neg (by simp [h d rfl])]

theorem wsCollapse_of_collapsed :
    ∀ {l : PyStr}, collapsedB l = true → wsCollapse l = l := by
  intro l
  induction l with
  | nil => intro _; rfl
  | cons d rest ih =>
    intro h
    rcases collapsedB_head_props h with ⟨hp1, hp2⟩
    rw [wsCollapse, wsCollapseGo]
    by_cases hd : isPyWs d
    · rw [if_pos hd, if_neg (by decide)]
      have hd' : d = ' ' := by
        rcases Bool.or_eq_true_iff.mp hp1 with h1 | h1
        · rw [hd] at h1; cases h1
        · simpa using h1
      have hrest : ∀ x, rest.head? = some x → isPyWs x = false := by
        intro x hx
        have := hp2 x hx
        rw [hd] at this
        simpa using this
      rw [wsCollapseGo_true_eq_false hrest]
      rw [show wsCollapseGo false rest = wsCollapse rest from rfl,
        ih (collapsedB_tail h), hd']
    · rw [if_neg hd]
      rw [show wsCollapseGo false rest = wsCollapse rest from rfl,
        ih (collapsedB_tail h)]

theorem dtw_idem : ∀ (l : PyStr),
    dropTrailingWs (dropTrailingWs l) = dropTrailingWs l := by
  intro l
  induction l with
  | nil => rfl
  | cons d rest ih =>
    rw [dropTrailingWs]
    split
    · rfl
    · rename_i hcond
      rw [dropTrailingWs, ih]
      rw [if_neg hcond]

theorem dropWhile_eq_self_of_head {l : PyStr}
    (h : ∀ x, l.head? = some x → isPyWs x = false) :
    l.dropWhile isPyWs = l := by
  cases l with
  | nil => rfl
  | cons d rest =>
    rw [List.dropWhile_cons_of_neg (by simp [h d rfl])]

theorem pyStrip_head {l : PyStr} :
    ∀ x, (pyStrip l).head? = some x → isPyWs x = false := by
  intro x hx
  rw [pyStrip] at hx
  rcases dtw_head (l.dropWhile isPyWs) with h1 | h1
  · rw [h1] at hx; cases hx
  · exact head_dropWhile_ws l x (h1 ▸ hx)

theorem SW_fix {u : PyStr} (hc : collapsedB u = true)
    (hh : ∀ x, u.head? = some x → isPyWs x = false)
    (ht : dropTrailingWs u = u) :
    pyStrip (wsCollapse u) = u := by
  rw [wsCollapse_of_collapsed hc, pyStrip, dropWhile_eq_self_of_head hh, ht]

theorem SW_props (y : PyStr) :
    collapsedB (pyStrip (wsCollapse y)) = true ∧
      (∀ x, (pyStrip (wsCollapse y)).head? = some x → isPyWs x = false) ∧
      dropTrailingWs (pyStrip (wsCollapse y)) = pyStrip (wsCollapse y) := by
  refine ⟨?_, pyStrip_head, ?_⟩
  · exact collapsedB_dtw (collapsedB_dropWhile (collapsedB_wsCollapseGo y false))
  · rw [pyStrip, dtw_idem]

theorem SW_idem (y : PyStr) :
    pyStrip (wsCollapse (pyStrip (wsCollapse y))) = pyStrip (wsCollapse y) := by
  rcases SW_props y with ⟨h1, h2, h3⟩
  exact SW_fix h1 h2 h3

theorem ascii_ne_special {c : Char} (h : c.toNat < 0x80) :
    ¬c = aAcute ∧ ¬c = acuteAccent ∧ ¬c = smallSharpS ∧
      ¬c = capitalSharpS := by
  refine ⟨fun he => ?_, fun he => ?_, fun he => ?_, fun he => ?_⟩ <;>
    (subst he; revert h; decide)

theorem decompChar_ascii {c : Char} (h : c.toNat < 0x80) :
    decompChar c = [c] := by
  rw [decompChar, if_neg (ascii_ne_special h).1]

theorem composeSeqF_id :
    ∀ (fuel : Nat) (l : PyStr), (∀ c ∈ l, ¬c = acuteAccent) →
      composeSeqF fuel l = l := by
  intro fuel
  induction fuel with
  | zero => intro l _; rfl
  | succ fuel ih =>
    intro l h
    match l with
    | [] => rfl
    | [c] => rfl
    | a :: b :: rest =>
      have hcp : composePair a b = none := by
        rw [composePair, if_neg (by simp [h b (by simp)])]
      rw [composeSeqF, hcp]
      dsimp only
      rw [ih (b :: rest) (fun c hc => h c (List.mem_cons_of_mem _ hc))]

theorem nfkd_ascii {s : PyStr} (hs : asciiOnly s) : nfkd s = s :=
  flatMap_self_of (fun c hc => decompChar_ascii (hs c hc))

theorem nfkc_ascii {s : PyStr} (hs : asciiOnly s) : nfkc s = s := by
  rw [nfkc, composeSeq,
    flatMap_self_of (fun c hc => decompChar_ascii (hs c hc))]
  exact composeSeqF_id _ s (fun c hc => (ascii_ne_special (hs c hc)).2.1)

theorem isCfChar_ascii {c : Char} (h : c.toNat < 0x80) :
    isCfChar c = false := by
  rw [isCfChar]
  simp only [Bool.or_eq_false_iff, beq_eq_false_iff_ne, ne_eq]
  omega

theorem isDashVariant_ascii {c : Char} (h : c.toNat < 0x80) :
    isDashVariant c = false := by
  rw [isDashVariant]
  simp only [Bool.or_eq_false_iff, beq_eq_false_iff_ne, ne_eq]
  omega

theorem isSpaceVariant_ascii {c : Char} (h : c.toNat < 0x80) :
    isSpaceVariant c = false := by
  rw [isSpaceVariant]
  simp only [Bool.or_eq_false_iff, beq_eq_false_iff_ne, ne_eq]
  omega

theorem isApoVariant_not_backtick {c : Char} (h1 : c.toNat < 0x80)
    (h2 : ¬c.toNat = 0x60) : isApoVariant c = false := by
  rw [isApoVariant]
  simp only [Bool.or_eq_false_iff, beq_eq_false_iff_ne, ne_eq]
  omega

theorem isPyWs_of_range {c : Char} (h1 : 0x21 ≤ c.toNat)
    (h2 : c.toNat ≤ 0x7A) : isPyWs c = false := by
  rw [isPyWs]
  simp only [Bool.or_eq_false_iff, Bool.and_eq_false_iff,
    beq_eq_false_iff_ne, ne_eq, decide_eq_false_iff_not, not_le]
  omega

theorem lowerChar_ascii {c : Char} (h : c.toNat < 0x80) :
    (lowerChar c).toNat < 0x80 ∧ lowerChar (lowerChar c) = lowerChar c ∧
      isPyWs (lowerChar c) = isPyWs c ∧
      casefoldChar (lowerChar c) = [lowerChar c] := by
  rw [lowerChar, if_neg (ascii_ne_special h).2.2.2]
  by_cases hu : (0x41 ≤ c.toNat && c.toNat ≤ 0x5A) = true
  · rw [if_pos hu]
    simp only [Bool.and_eq_true, decide_eq_true_eq] at hu
    have ht : (Char.ofNat (c.toNat + 0x20)).toNat = c.toNat + 0x20 :=
      toNat_ofNat (by omega)
    have hcap : capitalSharpS.toNat = 0x1E9E := by decide
    have hsm : smallSharpS.toNat = 0xDF := by decide
    have hne : ¬Char.ofNat (c.toNat + 0x20) = capitalSharpS := by
      intro he; rw [he] at ht; omega
    have hnb : ¬Char.ofNat (c.toNat + 0x20) = smallSharpS := by
      intro he; rw [he] at ht; omega
    refine ⟨by omega, ?_, ?_, ?_⟩
    · rw [lowerChar, if_neg hne, if_neg (by
        simp only [Bool.and_eq_true, decide_eq_true_eq, ht, not_and, not_le]
        omega)]
    · rw [isPyWs_of_range (by omega) (by omega),
        isPyWs_of_range (by omega) (by omega)]
    · rw [casefoldChar, if_neg (by simp [hnb, hne]), if_neg (by
        simp only [Bool.and_eq_true, decide_eq_true_eq, ht, not_and, not_le]
        omega)]
  · rw [if_neg hu]
    simp only [Bool.and_eq_true, decide_eq_true_eq, not_and, not_le] at hu
    refine ⟨h, ?_, rfl, ?_⟩
    · rw [lowerChar, if_neg (ascii_ne_special h).2.2.2, if_neg (by
        simp only [Bool.and_eq_true, decide_eq_true_eq, not_and, not_le]
        exact hu)]
    · rw [casefoldChar,
        if_neg (by
          simp [(ascii_ne_special h).2.2.1, (ascii_ne_special h).2.2.2]),
        if_neg (by
          simp only [Bool.and_eq_true, decide_eq_true_eq, not_and, not_le]
          exact hu)]

theorem lowerChar_apo {d : Char} (hd : d.toNat < 0x80)
    (ha : isApoVariant d = false) : isApoVariant (lowerChar d) = false := by
  rw [lowerChar, if_neg (ascii_ne_special hd).2.2.2]
  by_cases hu : (0x41 ≤ d.toNat && d.toNat ≤ 0x5A) = true
  · rw [if_pos hu]
    simp only [Bool.and_eq_true, decide_eq_true_eq] at hu
    have ht : (Char.ofNat (d.toNat + 0x20)).toNat = d.toNat + 0x20 :=
      toNat_ofNat (by omega)
    exact isApoVariant_not_backtick (by omega) (by omega)
  · rw [if_neg hu]
    exact ha

theorem translate_ascii {c : Char} (h : c.toNat < 0x80) :
    (translateCv c).toNat < 0x80 ∧ isDashVariant (translateCv c) = false ∧
      isApoVariant (translateCv c) = false ∧
      isSpaceVariant (translateCv c) = false := by
  by_cases ha : isApoVariant c = true
  · rw [translateCv, isDashVariant_ascii h, if_neg (by decide), if_pos ha]
    exact ⟨by decide, by decide, by decide, by decide⟩
  · rw [translateCv, isDashVariant_ascii h, if_neg (by decide), if_neg ha,
      isSpaceVariant_ascii h, if_neg (by decide)]
    exact ⟨h, isDashVariant_ascii h, by simpa using ha,
      isSpaceVariant_ascii h⟩

theorem translateCv_fix {c : Char} (h1 : isDashVariant c = false)
    (h2 : isApoVariant c = false) (h3 : isSpaceVariant c = false) :
    translateCv c = c := by
  rw [translateCv, h1, h2, h3, if_neg (by decide), if_neg (by decide),
    if_neg (by decide)]

theorem casefoldChar_ascii_single {c : Char} (h : c.toNat < 0x80) :
    casefoldChar c = [lowerChar c] := by
  rw [casefoldChar, lowerChar,
    if_neg (by
      simp [(ascii_ne_special h).2.2.1, (ascii_ne_special h).2.2.2]),
    if_neg (ascii_ne_special h).2.2.2]
  by_cases hu : (0x41 ≤ c.toNat && c.toNat ≤ 0x5A) = true
  · rw [if_pos hu, if_pos hu]
  · rw [if_neg hu, if_neg hu]

theorem flatMap_eq_map_of {f : Char → List Char} {g : Char → Char} :
    ∀ {l : PyStr}, (∀ c ∈ l, f c = [g c]) → l.flatMap f = l.map g := by
  intro l
  induction l with
  | nil => intro _; rfl
  | cons c rest ih =>
    intro h
    rw [List.flatMap_cons, h c (by simp),
      ih (fun d hd => h d (by simp [hd])), List.map_cons]
    rfl

theorem head_map_ws {f : Char → Char} {l : PyStr}
    (hf : ∀ c ∈ l, isPyWs (f c) = isPyWs c)
    (h : ∀ x, l.head? = some x → isPyWs x = false) :
    ∀ x, (l.map f).head? = some x → isPyWs x = false := by
  intro x hx
  cases l with
  | nil => cases hx
  | cons d rest =>
    rw [List.map_cons] at hx
    have hxd : x = f d := (Option.some.inj (by simpa using hx)).symm
    subst hxd
    rw [hf d (by simp)]
    exact h d rfl

theorem dtw_map_fix {f : Char → Char} :
    ∀ {l : PyStr}, (∀ c ∈ l, isPyWs (f c) = isPyWs c) →
      dropTrailingWs l = l → dropTrailingWs (l.map f) = l.map f := by
  intro l
  induction l with
  | nil => intro _ _; rfl
  | cons d rest ih =>
    intro hf h
    rw [dropTrailingWs] at h
    split at h
    · exact absurd h (by simp)
    · rename_i hcond
      have hrest : dropTrailingWs rest = rest := (List.cons.inj h).2
      rw [List.map_cons, dropTrailingWs,
        ih (fun c hc => hf c (by simp [hc])) hrest]
      rw [if_neg (by
        rw [hf d (by simp)]
        intro hcc
        rcases hcc with ⟨hc1, hc2⟩
        exact hcond ⟨by rw [hrest]; simpa using hc1, hc2⟩)]

theorem collapsedB_map {f : Char → Char} (hsp : f ' ' = ' ') :
    ∀ {l : PyStr}, (∀ c ∈ l, isPyWs (f c) = isPyWs c) →
      collapsedB l = true → collapsedB (l.map f) = true := by
  intro l
  induction l with
  | nil => intro _ _; rfl
  | cons d rest ih =>
    intro hf h
    rw [List.map_cons]
    rcases collapsedB_head_props h with ⟨hp1, hp2⟩
    refine collapsedB_cons_of ?_ ?_
      (ih (fun c hc => hf c (by simp [hc])) (collapsedB_tail h))
    · rw [hf d (by simp)]
      rcases Bool.or_eq_true_iff.mp hp1 with h1 | h1
      · simp [h1]
      · have hd : d = ' ' := by simpa using h1
        subst hd
        rw [hsp]
        simp
    · intro x hx
      cases rest with
      | nil => cases hx
      | cons e es =>
        rw [List.map_cons] at hx
        have hxe : x = f e := (Option.some.inj (by simpa using hx)).symm
        subst hxe
        rw [hf d (by simp), hf e (by simp)]
        exact hp2 e rfl

theorem ssExpand_ascii {c : Char} (h : c.toNat < 0x80) : ssExpand c = [c] := by
  rw [ssExpand, if_neg (ascii_ne_special h).2.2.1]

theorem underscoreToSpace_fix {c : Char} (h : ¬c = '_') :
    underscoreToSpace c = c := by
  rw [underscoreToSpace, if_neg h]

theorem erNormalize_ascii_idem {s : PyStr} (hs : asciiOnly s) :
    erNormalize (erNormalize s) = erNormalize s := by
  by_cases hne : s = []
  · subst hne; rfl
  · have hmapA : asciiOnly ((s.map underscoreToSpace).map lowerChar) := by
      intro c hc
      rcases List.mem_map.mp hc with ⟨d, hd, rfl⟩
      rcases List.mem_map.mp hd with ⟨e, he, rfl⟩
      have he8 : (underscoreToSpace e).toNat < 0x80 := by
        rw [underscoreToSpace]
        by_cases hu : e = '_'
        · rw [if_pos hu]; decide
        · rw [if_neg hu]; exact hs e he
      exact (lowerChar_ascii he8).1
    have heq : erNormalize s = pyStrip (wsCollapse
        (((s.map underscoreToSpace).map lowerChar).filter
          (fun c => isAlnumChar c || isPyWs c))) := by
      rw [erNormalize, if_neg hne,
        flatMap_self_of (fun c hc => ssExpand_ascii (hs c hc)),
        nfkd_ascii hmapA]
    have hchar : ∀ c ∈ erNormalize s, c.toNat < 0x80 ∧ ¬c = '_' ∧
        lowerChar c = c ∧ (isAlnumChar c || isPyWs c) = true := by
      intro c hc
      rw [heq] at hc
      have hc2 : c ∈ wsCollapseGo false
          (((s.map underscoreToSpace).map lowerChar).filter
            (fun c => isAlnumChar c || isPyWs c)) := by
        have hcc := mem_of_pyStrip hc
        rwa [wsCollapse] at hcc
      rcases mem_of_wsCollapseGo _ false hc2 with hsp | hmem
      · subst hsp
        exact ⟨by decide, by decide, by decide, by decide⟩
      · rcases List.mem_filter.mp hmem with ⟨hmm, hp⟩
        rcases List.mem_map.mp hmm with ⟨d, hd, rfl⟩
        rcases List.mem_map.mp hd with ⟨e, he, rfl⟩
        have he8 : (underscoreToSpace e).toNat < 0x80 := by
          rw [underscoreToSpace]
          by_cases hu : e = '_'
          · rw [if_pos hu]; decide
          · rw [if_neg hu]; exact hs e he
        refine ⟨(lowerChar_ascii he8).1, ?_, (lowerChar_ascii he8).2.1, hp⟩
        intro hueq
        rw [hueq] at hp
        revert hp
        decide
    by_cases hz : erNormalize s = []
    · rw [hz]; rfl
    · have hz' : ¬pyStrip (wsCollapse
          (((s.map underscoreToSpace).map lowerChar).filter
            (fun c => isAlnumChar c || isPyWs c))) = [] := by
        rw [← heq]; exact hz
      have hchar' : ∀ c ∈ pyStrip (wsCollapse
          (((s.map underscoreToSpace).map lowerChar).filter
            (fun c => isAlnumChar c || isPyWs c))),
          c.toNat < 0x80 ∧ ¬c = '_' ∧ lowerChar c = c ∧
            (isAlnumChar c || isPyWs c) = true := by
        rw [← heq]; exact hchar
      rw [heq, erNormalize, if_neg hz',
        flatMap_self_of (fun c hc => ssExpand_ascii (hchar' c hc).1),
        map_self_of (fun c hc => underscoreToSpace_fix (hchar' c hc).2.1),
        map_self_of (fun c hc => (hchar' c hc).2.2.1),
        nfkd_ascii (fun c hc => (hchar' c hc).1),
        List.filter_eq_self.mpr (fun c hc => (hchar' c hc).2.2.2)]
      exact SW_idem _

theorem cvNormalize_ascii_idem {s : PyStr} (hs : asciiOnly s) :
    cvNormalize (cvNormalize s) = cvNormalize s := by
  have hM : ∀ d ∈ (s.filter (fun c => !isCfChar c)).map translateCv,
      d.toNat < 0x80 ∧ isDashVariant d = false ∧ isApoVariant d = false ∧
        isSpaceVariant d = false := by
    intro d hd
    rcases List.mem_map.mp hd with ⟨e, he, rfl⟩
    exact translate_ascii (hs e (List.mem_of_mem_filter he))
  have hu : ∀ d ∈ pyStrip (wsCollapse ((s.filter
      (fun c => !isCfChar c)).map translateCv)),
      d.toNat < 0x80 ∧ isDashVariant d = false ∧ isApoVariant d = false ∧
        isSpaceVariant d = false := by
    intro d hd
    have hd2 : d ∈ wsCollapseGo false ((s.filter
        (fun c => !isCfChar c)).map translateCv) := by
      have hdd := mem_of_pyStrip hd
      rwa [wsCollapse] at hdd
    rcases mem_of_wsCollapseGo _ false hd2 with hsp | hmem
    · subst hsp
      exact ⟨by decide, by decide, by decide, by decide⟩
    · exact hM d hmem
  have hzmap : cvNormalize s = (pyStrip (wsCollapse ((s.filter
      (fun c => !isCfChar c)).map translateCv))).map lowerChar := by
    rw [cvNormalize, nfkc_ascii hs]
    exact flatMap_eq_map_of (fun d hd => casefoldChar_ascii_single (hu d hd).1)
  have hzchar : ∀ c ∈ cvNormalize s, c.toNat < 0x80 ∧ isCfChar c = false ∧
      isDashVariant c = false ∧ isApoVariant c = false ∧
        isSpaceVariant c = false ∧ casefoldChar c = [c] := by
    intro c hc
    rw [hzmap] at hc
    rcases List.mem_map.mp hc with ⟨d, hd, rfl⟩
    rcases hu d hd with ⟨hd8, _, hdapo, _⟩
    have hl := lowerChar_ascii hd8
    exact ⟨hl.1, isCfChar_ascii hl.1, isDashVariant_ascii hl.1,
      lowerChar_apo hd8 hdapo, isSpaceVariant_ascii hl.1, hl.2.2.2⟩
  rcases SW_props ((s.filter (fun c => !isCfChar c)).map translateCv)
    with ⟨hP1, hP2, hP3⟩
  have hwsf : ∀ d ∈ pyStrip (wsCollapse ((s.filter
      (fun c => !isCfChar c)).map translateCv)),
      isPyWs (lowerChar d) = isPyWs d :=
    fun d hd => (lowerChar_ascii (hu d hd).1).2.2.1
  have hz1 : collapsedB (cvNormalize s) = true := by
    rw [hzmap]
    exact collapsedB_map (by decide) hwsf hP1
  have hz2 : ∀ x, (cvNormalize s).head? = some x → isPyWs x = false := by
    intro x hx
    rw [hzmap] at hx
    exact head_map_ws hwsf hP2 x hx
  have hz3 : dropTrailingWs (cvNormalize s) = cvNormalize s := by
    rw [hzmap]
    exact dtw_map_fix hwsf hP3
  have h8 : asciiOnly (cvNormalize s) := fun c hc => (hzchar c hc).1
  rw [cvNormalize, nfkc_ascii h8,
    List.filter_eq_self.mpr (fun c hc => by
      rw [(hzchar c hc).2.1]
      rfl),
    map_self_of (fun c hc => translateCv_fix (hzchar c hc).2.2.1
      (hzchar c hc).2.2.2.1 (hzchar c hc).2.2.2.2.1),
    SW_fix hz1 hz2 hz3,
    flatMap_self_of (fun c hc => (hzchar c hc).2.2.2.2.2)]

/-- C7 (amended): both normalizer variants are idempotent on ASCII strings:
for every string of ASCII characters, applying `er_matching.normalize` or
`check_videos_presence.normalize` twice gives the same result as applying it
once. (Full idempotence over all Unicode strings fails, see the
counterexample.) -/
theorem C7_amended_idempotent :
    (∀ s : PyStr, asciiOnly s → erNormalize (erNormalize s) = erNormalize s) ∧
    (∀ s : PyStr, asciiOnly s → cvNormalize (cvNormalize s) = cvNormalize s) :=
  ⟨fun _ hs => erNormalize_ascii_idem hs, fun _ hs => cvNormalize_ascii_idem hs⟩

/-- Witness for the amended C7: both idempotence statements applied to
concrete ASCII strings. -/
theorem C7_amended_idempotent_witness :
    erNormalize (erNormalize gottTitle) = erNormalize gottTitle ∧
    cvNormalize (cvNormalize fnPlain) = cvNormalize fnPlain :=
  ⟨C7_amended_idempotent.1 gottTitle (by unfold asciiOnly; decide),
   C7_amended_idempotent.2 fnPlain (by unfold asciiOnly; decide)⟩

/-- C3 witness: the round-trip at the concrete sample episode. -/
theorem C3_filename_roundtrip_witness :
    key_from_filename (build_new_filename epSample) =
      some (cvNormalize (rawKey epSample.season_episode_code
        epSample.air_date_iso (pyIntStr 1))) :=
  C3_filename_roundtrip epSample ['0', '1'] ['0', '1']
    '2' '0' '0' '6' '0' '7' '1' '0' 1
    (by decide) (by decide) (by decide) (by decide) (by decide) (by decide)
    (by decide) (by decide) (by decide) (by decide) (by decide) (by decide)
    (by decide) (by decide) (by decide) (by decide) (by decide) (by decide)
    (by decide)

theorem sortKey_eq_parts {a b : Obs} (h : sortKey a = sortKey b) :
    groupKey a = groupKey b ∧ tbKey a = tbKey b := by
  simp only [sortKey, toLex_inj, Prod.mk.injEq, OrderDual.toDual_inj] at h
  obtain ⟨h1, h2, h3, h4, h5⟩ := h
  constructor
  · rw [groupKey, groupKey, h1, h2]
  · rw [tbKey, tbKey, h3, h4, h5]

theorem rowLe_iff_tb {a b : Obs} (h : groupKey a = groupKey b) :
    rowLe a b ↔ tbKey b ≤ tbKey a := by
  have he : a.episode = b.episode := congrArg Prod.fst h
  have ht : titleKey a = titleKey b := congrArg Prod.snd h
  rw [rowLe, sortKey, sortKey, tbKey, tbKey, he, ht]
  simp only [Prod.Lex.le_iff, Prod.Lex.lt_iff, lt_self_iff_false, false_or,
    true_and, OrderDual.toDual_le_toDual, OrderDual.toDual_lt_toDual,
    OrderDual.toDual_inj]
  constructor
  · rintro (h1 | ⟨h1, h2 | ⟨h2, h3⟩⟩)
    · exact Or.inl h1
    · exact Or.inr ⟨h1.symm, Or.inl h2⟩
    · exact Or.inr ⟨h1.symm, Or.inr ⟨h2.symm, h3⟩⟩
  · rintro (h1 | ⟨h1, h2 | ⟨h2, h3⟩⟩)
    · exact Or.inl h1
    · exact Or.inr ⟨h1.symm, Or.inl h2⟩
    · exact Or.inr ⟨h1.symm, Or.inr ⟨h2.symm, h3⟩⟩

theorem dedupFirstF_sublist :
    ∀ (n : Nat) (l : List Obs), (dedupFirstF n l).Sublist l := by
  intro n
  induction n with
  | zero => intro l; exact List.nil_sublist l
  | succ n ih =>
    intro l
    match l with
    | [] => exact List.Sublist.refl []
    | a :: t =>
      rw [dedupFirstF]
      exact List.Sublist.cons₂ a ((ih _).trans (List.filter_sublist t))

theorem dedupFirstF_countP_le (g : Int × List Char) :
    ∀ (n : Nat) (l : List Obs),
      (dedupFirstF n l).countP (fun r => decide (groupKey r = g)) ≤ 1 := by
  intro n
  induction n with
  | zero => intro l; simp [dedupFirstF]
  | succ n ih =>
    intro l
    match l with
    | [] => simp [dedupFirstF]
    | a :: t =>
      rw [dedupFirstF, List.countP_cons]
      by_cases hg : groupKey a = g
      · have hz : (dedupFirstF n (t.filter
            (fun b => !decide (groupKey b = groupKey a)))).countP
            (fun r => decide (groupKey r = g)) = 0 := by
          rw [List.countP_eq_zero]
          intro r hr
          have hrf : r ∈ t.filter (fun b => !decide (groupKey b = groupKey a)) :=
            List.Sublist.mem hr (dedupFirstF_sublist n _)
          have hno := (List.mem_filter.mp hrf).2
          simp only [Bool.not_eq_true', decide_eq_false_iff_not] at hno
          simp only [decide_eq_true_eq]
          rw [← hg]
          exact hno
        rw [hz]
        simp [hg]
      · rw [if_neg (by simpa using hg), Nat.add_zero]
        exact ih _

theorem dedupFirstF_covers :
    ∀ (n : Nat) (l : List Obs), l.length ≤ n → ∀ o ∈ l,
      ∃ r ∈ dedupFirstF n l, groupKey r = groupKey o := by
  intro n
  induction n with
  | zero =>
    intro l hl o ho
    rw [List.length_eq_zero.mp (Nat.le_zero.mp hl)] at ho
    cases ho
  | succ n ih =>
    intro l hl o ho
    match l, hl, ho with
    | a :: t, hl, ho =>
      rw [dedupFirstF]
      by_cases hg : groupKey o = groupKey a
      · exact ⟨a, by simp, hg.symm⟩
      · have hot : o ∈ t := by
          rcases List.mem_cons.mp ho with rfl | h2
          · exact absurd rfl hg
          · exact h2
        have hof : o ∈ t.filter (fun b => !decide (groupKey b = groupKey a)) :=
          List.mem_filter.mpr ⟨hot, by simpa using hg⟩
        have hlen : (t.filter
            (fun b => !decide (groupKey b = groupKey a))).length ≤ n :=
          le_trans (List.length_filter_le _ _) (Nat.succ_le_succ_iff.mp hl)
        rcases ih _ hlen o hof with ⟨r, hr, hrg⟩
        exact ⟨r, by simp [hr], hrg⟩

theorem dedupFirstF_max :
    ∀ (n : Nat) (l : List Obs), List.Sorted rowLe l →
      ∀ r ∈ dedupFirstF n l, ∀ o ∈ l, groupKey o = groupKey r →
        tbKey o ≤ tbKey r := by
  intro n
  induction n with
  | zero => intro l _ r hr; cases hr
  | succ n ih =>
    intro l hs r hr o ho hg
    cases l with
    | nil => cases hr
    | cons a t =>
      rw [dedupFirstF] at hr
      rcases List.mem_cons.mp hr with rfl | hr2
      · rcases List.mem_cons.mp ho with rfl | ho2
        · exact le_refl _
        · have hle : rowLe r o := (List.sorted_cons.mp hs).1 o ho2
          exact (rowLe_iff_tb hg.symm).mp hle
      · have hrf : r ∈ t.filter (fun b => !decide (groupKey b = groupKey a)) :=
          List.Sublist.mem hr2 (dedupFirstF_sublist n _)
        have hrna : ¬groupKey r = groupKey a := by
          have hno := (List.mem_filter.mp hrf).2
          simpa using hno
        rcases List.mem_cons.mp ho with rfl | ho2
        · exact absurd hg.symm hrna
        · have hof : o ∈ t.filter (fun b => !decide (groupKey b = groupKey a)) :=
            List.mem_filter.mpr ⟨ho2, by
              simp only [Bool.not_eq_true', decide_eq_false_iff_not]
              intro hh
              exact hrna (hg.symm.trans hh)⟩
          have hsf : List.Sorted rowLe
              (t.filter (fun b => !decide (groupKey b = groupKey a))) :=
            (List.sorted_cons.mp hs).2.filter _
          exact ih _ hsf r hr2 o hof hg

theorem surviveRows_mem {l : List Obs} {r : Obs} (hr : r ∈ surviveRows l) :
    r ∈ l := by
  rw [surviveRows, dedupFirst] at hr
  have h1 : r ∈ List.insertionSort rowLe l :=
    List.Sublist.mem hr (dedupFirstF_sublist _ _)
  exact ((List.perm_insertionSort rowLe l).mem_iff).mp h1

/-- C4: for every input list, each inhabited deduplication group (episode
number, normalized title) has exactly one survivor; every survivor comes
from the input and is maximal in its group under the tie-break order (latest
parsed date, then longest parsed duration, then greatest start-time string);
and the final presentation re-sort merely permutes the survivors. -/
theorem C4_dedupe_survivor (l : List Obs) :
    (∀ o ∈ l, (surviveRows l).countP
      (fun r => decide (groupKey r = groupKey o)) = 1) ∧
    (∀ r ∈ surviveRows l, r ∈ l ∧
      ∀ o ∈ l, groupKey o = groupKey r → tbKey o ≤ tbKey r) ∧
    (dedupe_final l).Perm (surviveRows l) := by
  refine ⟨?_, ?_, List.perm_insertionSort presLe (surviveRows l)⟩
  · intro o ho
    have ho2 : o ∈ List.insertionSort rowLe l :=
      ((List.perm_insertionSort rowLe l).mem_iff).mpr ho
    rcases dedupFirstF_covers (List.insertionSort rowLe l).length _
      (le_refl _) o ho2 with ⟨r, hr, hrg⟩
    have hpos : 0 < (surviveRows l).countP
        (fun r => decide (groupKey r = groupKey o)) := by
      rw [surviveRows, dedupFirst]
      exact List.countP_pos_iff.mpr ⟨r, hr, by simpa using hrg⟩
    have hle : (surviveRows l).countP
        (fun r => decide (groupKey r = groupKey o)) ≤ 1 := by
      rw [surviveRows, dedupFirst]
      exact dedupFirstF_countP_le (groupKey o) _ _
    omega
  · intro r hr
    refine ⟨surviveRows_mem hr, ?_⟩
    intro o ho hg
    have ho2 : o ∈ List.insertionSort rowLe l :=
      ((List.perm_insertionSort rowLe l).mem_iff).mpr ho
    have hr2 : r ∈ dedupFirstF (List.insertionSort rowLe l).length
        (List.insertionSort rowLe l) := by
      rw [surviveRows, dedupFirst] at hr
      exact hr
    exact dedupFirstF_max _ _ (List.sorted_insertionSort rowLe _) r hr2 o ho2 hg

/-- Witness for C4: in the concrete two-row list with tied keys, the group
of the first row has exactly one survivor. -/
theorem C4_dedupe_survivor_witness :
    (surviveRows [oDupA, oDupB]).countP
      (fun r => decide (groupKey r = groupKey oDupA)) = 1 :=
  (C4_dedupe_survivor [oDupA, oDupB]).1 oDupA (by decide)

/-- C5 counterexample: the two permutations of the same two-row collection
(identical group and identical date, duration and start keys, but distinct
raw titles) keep different survivors, so survivor selection depends on the
input order. -/
theorem C5_counterexample :
    ([oDupA, oDupB]).Perm ([oDupB, oDupA]) ∧
      ¬dedupe_final [oDupA, oDupB] = dedupe_final [oDupB, oDupA] ∧
      dedupe_final [oDupA, oDupB] = [oDupA] ∧
      dedupe_final [oDupB, oDupA] = [oDupB] :=
  ⟨by decide, by decide, by decide, by decide⟩

theorem rowLe_antisymm_of {a b : Obs} (h1 : rowLe a b) (h2 : rowLe b a)
    (hd : groupKey a = groupKey b → tbKey a = tbKey b → a = b) : a = b := by
  have hk : sortKey a = sortKey b := le_antisymm h1 h2
  rcases sortKey_eq_parts hk with ⟨hg, ht⟩
  exact hd hg ht

theorem sorted_perm_eq :
    ∀ {l₁ l₂ : List Obs}, l₁.Perm l₂ → List.Sorted rowLe l₁ →
      List.Sorted rowLe l₂ →
      (∀ a ∈ l₁, ∀ b ∈ l₁, rowLe a b → rowLe b a → a = b) → l₁ = l₂ := by
  intro l₁
  induction l₁ with
  | nil =>
    intro l₂ hp _ _ _
    exact (List.Perm.eq_nil hp.symm).symm
  | cons a t ih =>
    intro l₂ hp hs1 hs2 ha
    cases l₂ with
    | nil => exact absurd (List.Perm.eq_nil hp) (List.cons_ne_nil a t)
    | cons b t₂ =>
      have hab : a = b := by
        by_cases heq : a = b
        · exact heq
        · have hbin : b ∈ a :: t := hp.mem_iff.mpr (by simp)
          have hain : a ∈ b :: t₂ := hp.mem_iff.mp (by simp)
          have hrab : rowLe a b := by
            rcases List.mem_cons.mp hbin with h | h
            · exact absurd h.symm heq
            · exact (List.sorted_cons.mp hs1).1 b h
          have hrba : rowLe b a := by
            rcases List.mem_cons.mp hain with h | h
            · exact absurd h heq
            · exact (List.sorted_cons.mp hs2).1 a h
          exact ha a (by simp) b hbin hrab hrba
      subst hab
      have hp2 : t.Perm t₂ := hp.cons_inv
      have hrec := ih hp2 (List.sorted_cons.mp hs1).2 (List.sorted_cons.mp hs2).2
        (fun x hx y hy hxy hyx =>
          ha x (by simp [hx]) y (by simp [hy]) hxy hyx)
      rw [hrec]

/-- C5 (amended): the Deduplication Ranker is order-independent provided no
two distinct rows of the input share both the group key and all three
tie-break keys; when two distinct rows tie on every key, the stable sort
keeps them in input order and the survivor depends on the input order (see
the counterexample). -/
theorem C5_amended_order_independence (l l2 : List Obs) (hp : l.Perm l2)
    (hd : ∀ a ∈ l, ∀ b ∈ l, groupKey a = groupKey b → tbKey a = tbKey b →
      a = b) :
    dedupe_final l2 = dedupe_final l := by
  have hps : (List.insertionSort rowLe l2).Perm (List.insertionSort rowLe l) :=
    ((List.perm_insertionSort rowLe l2).trans hp.symm).trans
      (List.perm_insertionSort rowLe l).symm
  have hmem : ∀ x ∈ List.insertionSort rowLe l2, x ∈ l := fun x hx =>
    hp.symm.mem_iff.mp (((List.perm_insertionSort rowLe l2).mem_iff).mp hx)
  have heq : List.insertionSort rowLe l2 = List.insertionSort rowLe l :=
    sorted_perm_eq hps (List.sorted_insertionSort rowLe l2)
      (List.sorted_insertionSort rowLe l)
      (fun x hx y hy hxy hyx =>
        rowLe_antisymm_of hxy hyx (hd x (hmem x hx) y (hmem y hy)))
  rw [dedupe_final, dedupe_final, surviveRows, surviveRows, heq]

/-- Witness for the amended C5: a concrete tie-free two-row collection is
deduplicated identically in both input orders. -/
theorem C5_amended_order_independence_witness :
    dedupe_final [oAlpen, oDupA] = dedupe_final [oDupA, oAlpen] :=
  C5_amended_order_independence [oDupA, oAlpen] [oAlpen, oDupA]
    (List.Perm.swap oAlpen oDupA []) (by decide)


end ERSpec

